import Mathlib

/-!
Verification development for the betwixt literate-programming tangler.

The embedding below is a direct shallow translation of the Rust sources
(`src/lib.rs`, the monolithic revision that the repository builds): byte
slices become `List Nat`, nom combinators become explicit functions on byte
lists, and the stateful scanner / section-tree builder become explicit
state-passing functions.  Recursion that the Rust code performs with loops
is modelled structurally (with generous fuel where the loop bound is
data-dependent); fuel exhaustion is reported through dedicated sentinel
values that the real code can never produce, so that every theorem proved
about a concrete run reflects the real control flow.
-/

namespace Betwixt

/-- Bytes of the input document, as in the Rust `&[u8]` slices. -/
abbrev Bytes := List Nat

/-- Byte string literal helper: the UTF-8-agnostic byte view of an ASCII
string (all inputs used in this development are ASCII). -/
def strBytes (s : String) : Bytes := s.data.map (fun c => c.toNat)

/-- nom `is_space`: space or horizontal tab. -/
def isSpaceB (b : Nat) : Bool := b = 32 || b = 9

/-- nom `is_newline`: the byte `0x0A`. -/
def isNewlineB (b : Nat) : Bool := b = 10

/-- Space or newline, the whitespace class skipped before each property
assignment (`is_space(c) || is_newline(c)` in the source). -/
def isWsB (b : Nat) : Bool := isSpaceB b || isNewlineB b

/-- nom `is_alphabetic`: ASCII letter. -/
def isAlphaB (b : Nat) : Bool := (65 ≤ b && b ≤ 90) || (97 ≤ b && b ≤ 122)

/-- nom `is_alphanumeric`: ASCII letter or digit. -/
def isAlnumB (b : Nat) : Bool := isAlphaB b || (48 ≤ b && b ≤ 57)

/-- nom `tag(t)`: consume the literal prefix `t`, returning the rest, or
fail. -/
def tagP (t : Bytes) (i : Bytes) : Option Bytes :=
  if t.isPrefixOf i then some (i.drop t.length) else none

/-- nom `take_until(t)` on complete input: split at the first occurrence of
`t`, returning `(remaining-starting-at-t, consumed-before-t)`; fail when `t`
does not occur. -/
def takeUntilP (t : Bytes) : Bytes → Option (Bytes × Bytes)
  | [] => none
  | c :: rest =>
    if t.isPrefixOf (c :: rest) then some (c :: rest, [])
    else
      match takeUntilP t rest with
      | some (rem, pre) => some (rem, c :: pre)
      | none => none

/-- nom `take_until1(t)`: as `takeUntilP` but the consumed part must be
nonempty. -/
def takeUntil1P (t : Bytes) (i : Bytes) : Option (Bytes × Bytes) :=
  match takeUntilP t i with
  | some (rem, pre) => if pre = [] then none else some (rem, pre)
  | none => none

/-- `TangleMode` (src/lib.rs): how a tangled block is written out. -/
inductive TangleMode where
  | Overwrite : TangleMode
  | Append : TangleMode
  | Prepend : TangleMode
  | Insert : Bytes → TangleMode
deriving DecidableEq

/-- The `alt((overwrite, append, prepend, insert))` part of
`TangleMode::from_bytes` (src/lib.rs): `insert` takes a nonempty marker up
to the first `]`, delimited by `[` and `]`. -/
def tmBranch (b : Bytes) : Option (Bytes × TangleMode) :=
  match tagP (strBytes ("overwrite")) b with
  | some rest => some (rest, TangleMode.Overwrite)
  | none =>
    match tagP (strBytes ("append")) b with
    | some rest => some (rest, TangleMode.Append)
    | none =>
      match tagP (strBytes ("prepend")) b with
      | some rest => some (rest, TangleMode.Prepend)
      | none =>
        match tagP (strBytes ("insert")) b with
        | some rest =>
          match tagP (strBytes ("[")) rest with
          | some r2 =>
            match takeUntil1P (strBytes ("]")) r2 with
            | some (rem, marker) =>
              match tagP (strBytes ("]")) rem with
              | some r3 => some (r3, TangleMode.Insert marker)
              | none => none
            | none => none
          | none => none
        | none => none

/-- `TangleMode::from_bytes` (src/lib.rs): `all_consuming` around the
alternation. -/
def tangleModeFromBytes (b : Bytes) : Option TangleMode :=
  match tmBranch b with
  | some (rest, m) => if rest = [] then some m else none
  | none => none

/-- `Properties` (src/lib.rs): the optional per-block property set.  The
`pre`/`post` fields correspond to the Rust `prefix`/`postfix` fields, named
here after their surface keys `pre=`/`post=`. -/
structure Properties where
  filename : Option Bytes := none
  tag : Option Bytes := none
  mode : Option TangleMode := none
  ignore : Option Bool := none
  pre : Option Bytes := none
  post : Option Bytes := none
  code : Option Bytes := none
deriving DecidableEq

/-- First-some choice, used to transcribe the `if self.x.is_none()` merge. -/
def orElseO (a b : Option α) : Option α :=
  match a with
  | some v => some v
  | none => b

/-- `Properties::merge` (src/lib.rs): fill each absent field of `self` from
`parent`.  Note that the `code` field is deliberately NOT merged. -/
def mergeP (s parent : Properties) : Properties :=
  { filename := orElseO s.filename parent.filename
    tag := orElseO s.tag parent.tag
    mode := orElseO s.mode parent.mode
    ignore := orElseO s.ignore parent.ignore
    pre := orElseO s.pre parent.pre
    post := orElseO s.post parent.post
    code := s.code }

/-- Association list standing in for the `HashMap<&[u8], Properties>` of
language-scoped properties (only `get`, `contains_key` and replacing
`insert` are used, so the order of entries is immaterial). -/
abbrev LangMap := List (Bytes × Properties)

def lookupL (k : Bytes) : LangMap → Option Properties
  | [] => none
  | (k2, v) :: rest => if k2 = k then some v else lookupL k rest

def insertL (k : Bytes) (v : Properties) : LangMap → LangMap
  | [] => [(k, v)]
  | (k2, v2) :: rest =>
    if k2 = k then (k, v) :: rest else (k2, v2) :: insertL k v rest

/-- `PropertiesCollection` (src/lib.rs): a global property set plus the
language-scoped overrides of one section. -/
structure PropertiesCollection where
  global : Properties
  languages : LangMap
deriving DecidableEq

/-- `PropertiesCollection::get_code_props` (src/lib.rs). -/
def getCodeProps (c : PropertiesCollection) (lang : Option Bytes) : Properties :=
  match lang with
  | none => c.global
  | some l =>
    match lookupL l c.languages with
    | none => c.global
    | some langProps => mergeP langProps c.global

/-- `PropertiesCollection::update` (src/lib.rs). -/
def updateColl (c : PropertiesCollection) (lang : Option Bytes) (props : Properties) :
    PropertiesCollection :=
  match lang with
  | some l =>
    let props2 :=
      match lookupL l c.languages with
      | some existing => mergeP props existing
      | none => props
    ⟨c.global, insertL l props2 c.languages⟩
  | none => ⟨mergeP props c.global, c.languages⟩

/-- `CodePart` (src/lib.rs): the raw body and language tag of a fenced code
block (or of an inline `code=` payload). -/
structure CodePart where
  contents : Bytes
  lang : Option Bytes
deriving DecidableEq

/-- `Code` (src/lib.rs): an emitted code block with resolved properties. -/
structure Code where
  properties : Properties
  part : CodePart
deriving DecidableEq

/-- `SectionPart` (src/lib.rs): heading text and level. -/
structure SectionPart where
  heading : Option Bytes
  level : Nat
deriving DecidableEq

/-- `Section` (src/lib.rs): a node of the section tree. -/
inductive Section where
  | mk : SectionPart → PropertiesCollection → List Nat → List Section → Section

def Section.part : Section → SectionPart
  | .mk p _ _ _ => p

def Section.props : Section → PropertiesCollection
  | .mk _ c _ _ => c

def Section.codeBlockIndexes : Section → List Nat
  | .mk _ _ idxs _ => idxs

def Section.children : Section → List Section
  | .mk _ _ _ cs => cs

/-- `Section::new` (src/lib.rs). -/
def Section.new (part : SectionPart) (props : PropertiesCollection) : Section :=
  .mk part props [] []

/-- Push a finished child into a parent (`parent.children.push(child)`). -/
def Section.addChild : Section → Section → Section
  | .mk p c idxs cs, child => .mk p c idxs (cs ++ [child])

/-- Record a code-block index (`section.code_block_indexes.push(i)`). -/
def Section.addIdx : Section → Nat → Section
  | .mk p c idxs cs, i => .mk p c (idxs ++ [i]) cs

/-- Replace the property collection of the current section (the effect of
`section.properties.update(..)` on the mutable current section). -/
def Section.withProps : Section → PropertiesCollection → Section
  | .mk p _ idxs cs, c => .mk p c idxs cs

/-- `Document` (src/lib.rs). -/
structure Document where
  code_blocks : List Code
  root : Section

/-! ### Property-assignment recognisers (src/lib.rs `property`, `bool_property`) -/

/-- The apostrophe byte (the first quote alternative of `property`). -/
def sqB : Bytes := [39]

/-- The `alt((tag("\x27"), tag("\x22"), tag("|||")))` opening-quote
alternative of `property` (src/lib.rs); returns the matched quote and the
rest. -/
def quoteAlt (i3 : Bytes) : Option (Bytes × Bytes) :=
  match tagP sqB i3 with
  | some r => some (sqB, r)
  | none =>
    match tagP (strBytes ("\"")) i3 with
    | some r => some (strBytes ("\""), r)
    | none =>
      match tagP (strBytes ("|||")) i3 with
      | some r => some (strBytes ("|||"), r)
      | none => none

/-- `property(t)` (src/lib.rs): skip spaces and newlines, parse
`t=<quote>value<quote>` where the quote is one of the apostrophe, `"` or
`|||`, then eat trailing horizontal whitespace.  Returns
`(rest, value)`. -/
def propertyP (key : Bytes) (i : Bytes) : Option (Bytes × Bytes) :=
  match tagP key (i.dropWhile isWsB) with
  | none => none
  | some i2 =>
    match tagP (strBytes ("=")) i2 with
    | none => none
    | some i3 =>
      match quoteAlt i3 with
      | none => none
      | some (q, i4) =>
        match takeUntilP q i4 with
        | none => none
        | some (rem, val) =>
          match tagP q rem with
          | some i5 => some (i5.dropWhile isSpaceB, val)
          | none => none

/-- `bool_property(t)` (src/lib.rs): skip spaces and newlines, parse
`t=true` or `t=false`, then eat trailing horizontal whitespace. -/
def boolPropertyP (key : Bytes) (i : Bytes) : Option (Bytes × Bool) :=
  match tagP key (i.dropWhile isWsB) with
  | none => none
  | some i2 =>
    match tagP (strBytes ("=")) i2 with
    | none => none
    | some i3 =>
      match tagP (strBytes ("true")) i3 with
      | some r => some (r.dropWhile isSpaceB, true)
      | none =>
        match tagP (strBytes ("false")) i3 with
        | some r => some (r.dropWhile isSpaceB, false)
        | none => none

/-! ### `opt_permutation` and `properties` (src/lib.rs)

The Rust `opt_permutation` keeps a septuple of optional results and, in a
`while success` loop, tries the seven parsers in their tuple order
`(filename, pre, post, tag, mode, code, ignore)`, recording each first
success.  Here the septuple is a function `Fin 7 → Option PVal` and one
loop iteration is a fold of the uniform `permStep` over `[0, …, 6]`, which
is exactly the seven sequential `if results.k.is_none()` blocks of the
source.  Each successful iteration fills at least one empty slot, so the
loop performs at most 8 iterations; `permLoop` is therefore run with fuel
8, which can never be exhausted before the loop exits by itself. -/

/-- A recorded assignment value: bytes for the six quoted properties,
a boolean for `ignore`. -/
abbrev PVal := Bytes ⊕ Bool

/-- The surface key of each parser slot, in the tuple order of
`properties` (src/lib.rs). -/
def permKey : Fin 7 → Bytes
  | 0 => strBytes ("filename")
  | 1 => strBytes ("pre")
  | 2 => strBytes ("post")
  | 3 => strBytes ("tag")
  | 4 => strBytes ("mode")
  | 5 => strBytes ("code")
  | 6 => strBytes ("ignore")

/-- The parser of slot `k`: `bool_property` for `ignore`, `property`
otherwise. -/
def permParse (k : Fin 7) (i : Bytes) : Option (Bytes × PVal) :=
  if k = 6 then
    match boolPropertyP (permKey k) i with
    | some (rest, b) => some (rest, Sum.inr b)
    | none => none
  else
    match propertyP (permKey k) i with
    | some (rest, v) => some (rest, Sum.inl v)
    | none => none

abbrev PermSlots := Fin 7 → Option PVal

def permInit : PermSlots := fun _ => none

/-- One `if results.k.is_none() { if let Ok(..) = parsers.k.parse(..) … }`
block of `opt_permutation`. -/
def permStep (st : Bytes × PermSlots × Bool) (k : Fin 7) : Bytes × PermSlots × Bool :=
  match st.2.1 k with
  | some _ => st
  | none =>
    match permParse k st.1 with
    | some (rest, v) => (rest, Function.update st.2.1 k (some v), true)
    | none => st

/-- One iteration of the `while success` loop of `opt_permutation`. -/
def permPass (i : Bytes) (r : PermSlots) : Bytes × PermSlots × Bool :=
  (List.finRange 7).foldl permStep (i, r, false)

/-- The `while success` loop of `opt_permutation` (with fuel, see above). -/
def permLoop : Nat → Bytes → PermSlots → Bytes × PermSlots
  | 0, i, r => (i, r)
  | n + 1, i, r =>
    match permPass i r with
    | (i2, r2, true) => permLoop n i2 r2
    | (i2, r2, false) => (i2, r2)

/-- Bytes stored in slot `k` (if any). -/
def slotBytes (r : PermSlots) (k : Fin 7) : Option Bytes :=
  match r k with
  | some (Sum.inl v) => some v
  | _ => none

/-- Boolean stored in the `ignore` slot (if any). -/
def slotBool (r : PermSlots) : Option Bool :=
  match r 6 with
  | some (Sum.inr b) => some b
  | _ => none

/-- Building the `Properties` result from the recorded slots, applying
`TangleMode::from_bytes` to the recorded `mode` value (whose failure fails
the whole parse). -/
def slotsProps (r : PermSlots) : Option Properties :=
  match slotBytes r 4 with
  | some mbytes =>
    match tangleModeFromBytes mbytes with
    | some m =>
      some { filename := slotBytes r 0
             tag := slotBytes r 3
             mode := some m
             ignore := slotBool r
             pre := slotBytes r 1
             post := slotBytes r 2
             code := slotBytes r 5 }
    | none => none
  | none =>
    some { filename := slotBytes r 0
           tag := slotBytes r 3
           mode := none
           ignore := slotBool r
           pre := slotBytes r 1
           post := slotBytes r 2
           code := slotBytes r 5 }

/-- `properties` (src/lib.rs): `all_consuming(opt_permutation(..))`
followed by `TangleMode::from_bytes` on the recorded `mode` value.
`none` is the parse failure that the betwixt recogniser converts into
`InvalidProperties`. -/
def propertiesP (i : Bytes) : Option Properties :=
  if (permLoop 8 i permInit).1 = [] then slotsProps (permLoop 8 i permInit).2
  else none

/-! ### Line recognisers (src/lib.rs `code`, `section`, `betwixt`) -/

/-- `ScanResult` (src/lib.rs). -/
inductive ScanResult where
  | codeR : CodePart → ScanResult
  | sectionR : SectionPart → ScanResult
  | propsR : Option Bytes → Properties → ScanResult
  | endR : ScanResult
deriving DecidableEq

/-- The outcome of one line parser on the scanner's current window.
`matched` carries the unconsumed rest (which the scanner ignores),
`partialMatch` is the `Ok(.., PartialMatch)` case, `errNoMatch` is a nom
`Err::Error` (`BetwixtParseError::NoMatch`) and `failInvalid` is the nom
`Err::Failure(BetwixtParseError::InvalidProperties)`. -/
inductive LineOut where
  | matched : Bytes → ScanResult → LineOut
  | partialMatch : LineOut
  | errNoMatch : LineOut
  | failInvalid : LineOut
deriving DecidableEq

/-- `BetwixtParseError` (src/lib.rs): the only two error values the parse
can produce.  Neither constructor carries line numbers or the offending
bytes. -/
inductive BetwixtParseError where
  | noMatch : BetwixtParseError
  | invalidProperties : BetwixtParseError
deriving DecidableEq

/-- Does `tag(code_end), space0, newline` match at the head of `xs`?  This
is the closing-fence pattern probed by `locate_parser_match`. -/
def termMatch (ce : Bytes) (xs : Bytes) : Bool :=
  match tagP ce xs with
  | none => false
  | some r1 =>
    match r1.dropWhile isSpaceB with
    | c :: _ => isNewlineB c
    | [] => false

/-- `locate_parser_match` (src/lib.rs): the first index at which a parser
succeeds, scanning every byte offset of the input. -/
def locateMatch (p : Bytes → Bool) : Bytes → Option Nat
  | [] => none
  | c :: rest =>
    if p (c :: rest) then some 0
    else
      match locateMatch p rest with
      | some n => some (n + 1)
      | none => none

/-- `code(code_start, code_end)` (src/lib.rs): opening line
`<delim><optional alpha lang><space0>\n`, then search for the first
position where `<delim><space0>\n` matches; without one, `PartialMatch`. -/
def codeP (cs ce : Bytes) (i : Bytes) : LineOut :=
  match tagP cs i with
  | none => .errNoMatch
  | some r1 =>
    match tagP (strBytes ("\n")) ((r1.dropWhile isAlphaB).dropWhile isSpaceB) with
    | none => .errNoMatch
    | some input =>
      match locateMatch (termMatch ce) input with
      | none => .partialMatch
      | some endIdx =>
        -- `take_until("\n")` on `input[end_idx..]`; the `unwrap` in the
        -- source cannot fail because the matched terminator contains `\n`.
        .matched ((input.drop endIdx).dropWhile (fun c => !(isNewlineB c)))
          (.codeR ⟨input.take endIdx,
            if r1.takeWhile isAlphaB = [] then none else some (r1.takeWhile isAlphaB)⟩)

/-- `section(mark)` (src/lib.rs): one or more marker bytes, at least one
space or tab, then (peeked) at least one byte before a newline that must
exist in the window. -/
def sectionFn (mark : Nat) (i : Bytes) : LineOut :=
  if i.takeWhile (fun c => c = mark) = [] then .errNoMatch
  else if ((i.dropWhile (fun c => c = mark)).takeWhile isSpaceB) = [] then .errNoMatch
  else
    match takeUntil1P (strBytes ("\n")) ((i.dropWhile (fun c => c = mark)).dropWhile isSpaceB) with
    | none => .errNoMatch
    | some (_, heading) =>
      .matched ((i.dropWhile (fun c => c = mark)).dropWhile isSpaceB)
        (.sectionR ⟨some heading, (i.takeWhile (fun c => c = mark)).length⟩)

/-- The `opt(preceded(tag("+"), take_while(is_alphanumeric)))` qualifier of
the betwixt recogniser: after a `+`, the (possibly empty) alphanumeric run
is the language; without a `+` there is no language. -/
def betwixtQualifier (input : Bytes) : Option Bytes × Bytes :=
  match tagP (strBytes ("+")) input with
  | some r => (some (r.takeWhile isAlnumB), r.dropWhile isAlnumB)
  | none => (none, input)

/-- `betwixt(start, end)` (src/lib.rs): the opening token, an optional
`+<alphanumeric run>` language qualifier, the body up to the closing
token; a missing closing token is a `PartialMatch`, and a body that
`properties` rejects is the `Err::Failure(InvalidProperties)` case. -/
def betwixtP (stok etok : Bytes) (i : Bytes) : LineOut :=
  match tagP stok i with
  | none => .errNoMatch
  | some input =>
    match takeUntilP etok (betwixtQualifier input).2 with
    | none => .partialMatch
    | some (rem, body) =>
      match propertiesP body with
      | some props => .matched (rem.drop etok.length) (.propsR (betwixtQualifier input).1 props)
      | none => .failInvalid

/-- nom `alt`: try `p`, fall through to `q` only on `Err::Error`
(`errNoMatch`); `Err::Failure` and the `Ok` cases stop the cascade. -/
def altLine (p q : Bytes → LineOut) (w : Bytes) : LineOut :=
  match p w with
  | .errNoMatch => q w
  | r => r

/-- The combined parser of `Document::from_contents`:
`alt((parsers.code, parsers.section, parsers.betwixt))` with the GitHub
flavour delimiters used by the driver and the tests. -/
def stdParse : Bytes → LineOut :=
  altLine (codeP (strBytes ("```")) (strBytes ("```")))
    (altLine (sectionFn 35) (betwixtP (strBytes ("<?btxt")) (strBytes ("?>"))))

/-! ### The line scanner (src/lib.rs `LineScanner::scan`) -/

/-- The current line starting at `s1`: the bytes up to (excluding) the
next newline, or the whole remainder when no newline is left
(`take_until("\n")` with its error fallback). -/
def lineAt (data : Bytes) (s1 : Nat) : Bytes :=
  (data.drop s1).takeWhile (fun c => !(isNewlineB c))

/-- The end of the window after extending by one line:
`min(data.len(), slice.1 + line.len() + 1)`. -/
def newEndAt (data : Bytes) (s1 : Nat) : Nat :=
  min data.length (s1 + (lineAt data s1).length + 1)

/-- `LineScanner::scan` (src/lib.rs).  The scanner state is the working
window `[s0, s1)`; each iteration extends the window by one line, applies
the parser to `data[s0 .. newEnd)`, and either returns a construct
(advancing to `(newEnd, newEnd)`), keeps extending on `PartialMatch`,
skips the window on `NoMatch` (and, in non-strict mode, on
`InvalidProperties`), or returns the error in strict mode.  One unit of
fuel is spent per line, and each iteration advances `s1` by at least one
byte, so fuel `data.length + 2` can never run out; the sentinel value
returned on exhaustion is never produced by a real run. -/
def scanF (p : Bytes → LineOut) (data : Bytes) (strict : Bool) :
    Nat → Nat → Nat → Except BetwixtParseError (ScanResult × Nat)
  | 0, _, s1 => .ok (.endR, s1)
  | fuel + 1, s0, s1 =>
    if data.length ≤ s1 then .ok (.endR, s1)
    else
      match p ((data.take (newEndAt data s1)).drop s0) with
      | .matched _ r => .ok (r, newEndAt data s1)
      | .partialMatch => scanF p data strict fuel s0 (newEndAt data s1)
      | .errNoMatch => scanF p data strict fuel (newEndAt data s1) (newEndAt data s1)
      | .failInvalid =>
        if strict then .error .invalidProperties
        else scanF p data strict fuel (newEndAt data s1) (newEndAt data s1)

/-! ### The section tree builder (`Document::from_contents`, src/lib.rs) -/

/-- The `section_frame` array: ten optional open-parent slots. -/
abbrev Frame := List (Option Section)

def initFrame : Frame := List.replicate 10 none

/-- Indexing into the frame: `some slot` when in bounds, `none` when the
Rust indexing would panic. -/
def fget (f : Frame) (i : Nat) : Option (Option Section) := f.get? i

/-- Swap two in-bounds entries (`section_frame.swap(i, j)`). -/
def lswap (l : Frame) (i j : Nat) : Frame :=
  match fget l i, fget l j with
  | some a, some b => (l.set i b).set j a
  | _, _ => l

/-- `for idx in new.level + 1..10 { if section_frame[idx].is_some() {
section_frame.swap(new.level, idx); break; } }` -/
def promoteSwap (frame : Frame) (lvl : Nat) : Frame :=
  match (((List.range 10).drop (lvl + 1)).find? fun j =>
      match fget frame j with
      | some (some _) => true
      | _ => false) with
  | some idx => lswap frame lvl idx
  | none => frame

/-- The descending reconciliation loop
`for idx in (lo + 1..10).rev()` of the `new.level < current` branch:
each still-open deeper section is detached and pushed into its parent's
children (`none` models the panics: an `unwrap` of an empty parent slot or
an out-of-bounds index). -/
def reconcileDown (lo : Nat) : Nat → Frame → Option Frame
  | 0, frame => some frame
  | k + 1, frame =>
    let idx := lo + k + 1
    match fget frame idx with
    | some (some child) =>
      let f1 := frame.set idx none
      match fget f1 child.part.level with
      | some (some parent) =>
        reconcileDown lo k (f1.set child.part.level (some (parent.addChild child)))
      | _ => none
    | some none => reconcileDown lo k frame
    | none => none

/-- The `ScanResult::Section(new)` transition of `Document::from_contents`.
Returns the new current section and frame; `none` models the Rust panics
(an `unwrap` of an empty slot, or indexing `section_frame` out of bounds,
which happens exactly when a heading level is 10 or more). -/
def handleSection (new : SectionPart) (sec : Section) (frame : Frame) :
    Option (Section × Frame) :=
  if new.level = sec.part.level then
    match fget frame sec.part.level with
    | some (some parent) =>
      some (Section.new new parent.props,
        frame.set sec.part.level (some (parent.addChild sec)))
    | _ => none
  else if new.level < sec.part.level then
    match fget frame sec.part.level with
    | some (some parentC) =>
      match reconcileDown new.level (9 - new.level)
          (match fget (frame.set sec.part.level (some (parentC.addChild sec))) new.level with
           | some none =>
             promoteSwap (frame.set sec.part.level (some (parentC.addChild sec))) new.level
           | _ => frame.set sec.part.level (some (parentC.addChild sec))) with
      | none => none
      | some f3 =>
        match fget f3 new.level with
        | some (some p) => some (Section.new new p.props, f3)
        | _ => none
    | _ => none
  else
    -- descending into a child: `section_frame[new.level] = Some(section)`
    match fget frame new.level with
    | none => none
    | some _ => some (Section.new new sec.props, frame.set new.level (some sec))

/-- The `ScanResult::Code(code)` transition: resolve the effective
properties and append the block unless its resolved `ignore` is true. -/
def handleCode (part : CodePart) (sec : Section) (blocks : List Code) :
    Section × List Code :=
  let props := getCodeProps sec.props part.lang
  if props.ignore.getD false then (sec, blocks)
  else (sec.addIdx blocks.length, blocks ++ [⟨props, part⟩])

/-- The `ScanResult::Properties(props)` transition: an update with a
`code=` payload also emits a block (with no `ignore` check); a plain
update only rewrites the section's property collection. -/
def handleProps (lang : Option Bytes) (props : Properties) (sec : Section)
    (blocks : List Code) : Section × List Code :=
  match props.code with
  | some codeBytes =>
    let sec1 := sec.addIdx blocks.length
    let sec2 := sec1.withProps (updateColl sec1.props lang props)
    let eff := getCodeProps sec2.props lang
    (sec2, blocks ++ [⟨eff, ⟨codeBytes, lang⟩⟩])
  | none => (sec.withProps (updateColl sec.props lang props), blocks)

/-- The overall outcome of `Document::from_contents`: a document, a
returned error, or a Rust panic (`unwrap` on an empty slot, out-of-bounds
indexing, or the final `panic!("unreachable")`).  `fuelOut` is the
sentinel for fuel exhaustion of the modelled loops and is unreachable for
the fuel used by `documentFromContents`. -/
inductive Outcome where
  | ok : Document → Outcome
  | err : BetwixtParseError → Outcome
  | panic : Outcome
  | fuelOut : Outcome

/-- The closing loop `for idx in (0..10).rev()` after the scan ends: each
remaining open section is detached and attached to its parent; when the
parent slot is empty the detached section is the root and the document is
returned.  Falling out of the loop is the `panic!("unreachable")`. -/
def finalLoop (blocks : List Code) : Frame → Nat → Outcome
  | _, 0 => .panic
  | frame, k + 1 =>
    let idx := k
    match fget frame idx with
    | some (some child) =>
      let f1 := frame.set idx none
      match fget f1 child.part.level with
      | some (some parent) =>
        finalLoop blocks (f1.set child.part.level (some (parent.addChild child))) k
      | some none => .ok ⟨blocks, child⟩
      | none => .panic
    | some none => finalLoop blocks frame k
    | none => finalLoop blocks frame k

/-- The code that runs after `ScanResult::End`: push the current section
into its level's parent slot — the `unwrap` here panics whenever that slot
is empty, in particular when no heading was ever seen — then run the
closing loop. -/
def finalize (blocks : List Code) (sec : Section) (frame : Frame) : Outcome :=
  match fget frame sec.part.level with
  | some (some parent) =>
    finalLoop blocks (frame.set sec.part.level (some (parent.addChild sec))) 10
  | _ => .panic

/-- The event loop of `Document::from_contents`.  Fuel is spent once per
scanned construct; every construct advances the scan position by at least
one byte, so `data.length + 2` units never run out. -/
def fcLoop (p : Bytes → LineOut) (strict : Bool) (data : Bytes) :
    Nat → Nat → List Code → Section → Frame → Outcome
  | 0, _, _, _, _ => .fuelOut
  | fuel + 1, pos, blocks, sec, frame =>
    match scanF p data strict (data.length + 2) pos pos with
    | .error e => .err e
    | .ok (r, pos2) =>
      match r with
      | .endR => finalize blocks sec frame
      | .sectionR new =>
        match handleSection new sec frame with
        | none => .panic
        | some (sec2, frame2) => fcLoop p strict data fuel pos2 blocks sec2 frame2
      | .codeR part =>
        fcLoop p strict data fuel pos2 (handleCode part sec blocks).2
          (handleCode part sec blocks).1 frame
      | .propsR lang props =>
        fcLoop p strict data fuel pos2 (handleProps lang props sec blocks).2
          (handleProps lang props sec blocks).1 frame

/-- The implicit level-0 root section with empty properties. -/
def rootSection : Section :=
  .mk ⟨none, 0⟩ ⟨{}, []⟩ [] []

/-- `Document::from_contents` (src/lib.rs). -/
def documentFromContents (p : Bytes → LineOut) (strict : Bool) (data : Bytes) : Outcome :=
  fcLoop p strict data (data.length + 2) 0 [] rootSection initFrame

/-- A sequence of `ScanResult::Properties` transitions applied to the
current section and block list (used to state frame-effect properties of
property updates). -/
def applyUpdates (ups : List (Option Bytes × Properties)) (sb : Section × List Code) :
    Section × List Code :=
  ups.foldl (fun sb u => handleProps u.1 u.2 sb.1 sb.2) sb

/-- The emitted blocks of an outcome (empty unless the parse succeeded). -/
def Outcome.blocksD : Outcome → List Code
  | .ok d => d.code_blocks
  | _ => []

def Outcome.isPanic : Outcome → Bool
  | .panic => true
  | _ => false

def Outcome.isOk : Outcome → Bool
  | .ok _ => true
  | _ => false

/-! ### Well-formed annotation bodies (to quantify C7 over)

`Asg` is the abstract form of one property assignment: a slot index in the
pass order of `properties`, leading whitespace, and either a quoted value
(for the six byte-valued keys) or a boolean (for `ignore`).  `renderBody`
maps a list of assignments back to the concrete bytes of a body; the C7
theorems quantify over all well-formed assignment lists. -/

inductive Asg where
  | strA : Fin 6 → Bytes → Bytes → Bytes → Asg
  | boolA : Bytes → Bool → Asg
deriving DecidableEq

/-- The parser slot of an assignment (0 filename, 1 pre, 2 post, 3 tag,
4 mode, 5 code, 6 ignore). -/
def Asg.key : Asg → Fin 7
  | .strA k _ _ _ => k.castSucc
  | .boolA _ _ => 6

/-- The recorded value of an assignment. -/
def Asg.val : Asg → PVal
  | .strA _ _ _ v => Sum.inl v
  | .boolA _ b => Sum.inr b

/-- The concrete bytes of one assignment: leading whitespace, `key=`, then
the quoted value or the bare boolean token. -/
def Asg.render : Asg → Bytes
  | .strA k ws q v => ws ++ (permKey k.castSucc ++ (strBytes ("=") ++ (q ++ (v ++ q))))
  | .boolA ws b =>
    ws ++ (permKey 6 ++ (strBytes ("=") ++
      (if b then strBytes ("true") else strBytes ("false"))))

/-- The concrete bytes of a body: the assignments in order. -/
def renderBody : List Asg → Bytes
  | [] => []
  | a :: tl => a.render ++ renderBody tl

/-- The three quote alternatives of `property`. -/
def isQuote (q : Bytes) : Prop :=
  q = sqB ∨ q = strBytes ("\"") ∨ q = strBytes ("|||")

/-- The closing quote is found exactly at the end of the value: no earlier
offset of `v ++ q` starts with `q` (for one-byte quotes this says `q`'s
byte does not occur in `v`; for `|||` it also excludes values whose tail
combines with the closing bars). -/
def noEarly (q v : Bytes) : Prop :=
  ∀ j, j < v.length → ¬ q <+: ((v ++ q).drop j)

/-- Well-formedness of one assignment: whitespace is only spaces, tabs and
newlines, the quote is one of the three alternatives, the value does not
contain its closing quote, and a `mode` value must parse as a
`TangleMode`. -/
def Asg.Wf : Asg → Prop
  | .strA k ws q v => (∀ c ∈ ws, isWsB c = true) ∧ isQuote q ∧ noEarly q v ∧
      (k = (4 : Fin 6) → (tangleModeFromBytes v).isSome = true)
  | .boolA ws _ => ∀ c ∈ ws, isWsB c = true

instance : DecidablePred Asg.Wf := by
  intro a
  cases a <;> simp [Asg.Wf, isQuote, noEarly] <;> infer_instance

/-- After an assignment is consumed, its parser's trailing `space0` eats
the horizontal prefix of the next assignment's leading whitespace. -/
def adjustHead : List Asg → List Asg
  | [] => []
  | .strA k ws q v :: tl => .strA k (ws.dropWhile isSpaceB) q v :: tl
  | .boolA ws b :: tl => .boolA (ws.dropWhile isSpaceB) b :: tl

/-- The slot assignment produced by recording a list of assignments in
order. -/
def fillSlots (r : PermSlots) (l : List Asg) : PermSlots :=
  l.foldl (fun r a => Function.update r a.key (some a.val)) r

/-- The abstract effect of one `opt_permutation` pass over parsers `ks` on
a body state `(remaining assignments, trailing spaces, slots, success)`:
each parser consumes the head assignment exactly when its slot index is
the head's key. -/
def passSim : List (Fin 7) → List Asg × Bytes × PermSlots × Bool →
    List Asg × Bytes × PermSlots × Bool
  | [], st => st
  | k :: ks, (l, t, r, succ) =>
    match l with
    | [] => passSim ks ([], t, r, succ)
    | a :: tl =>
      if a.key = k then
        passSim ks (adjustHead tl, (if tl = [] then [] else t),
          Function.update r a.key (some a.val), true)
      else passSim ks (a :: tl, t, r, succ)

/-- Rendering of a pass-simulation state back to a parser state. -/
def simRender (st : List Asg × Bytes × PermSlots × Bool) : Bytes × PermSlots × Bool :=
  (renderBody st.1 ++ st.2.1, st.2.2.1, st.2.2.2)

/-- The value recorded for slot `k` by a body (the first assignment with
that key; well-formed bodies have at most one). -/
def lookupAsg (l : List Asg) (k : Fin 7) : Option PVal :=
  (l.find? (fun a => a.key = k)).map Asg.val

def pvalBytes : Option PVal → Option Bytes
  | some (Sum.inl v) => some v
  | _ => none

def pvalBool : Option PVal → Option Bool
  | some (Sum.inr b) => some b
  | _ => none

/-- The `Properties` value a well-formed body denotes. -/
def propsOfAsgs (l : List Asg) : Properties :=
  { filename := pvalBytes (lookupAsg l 0)
    tag := pvalBytes (lookupAsg l 3)
    mode :=
      match pvalBytes (lookupAsg l 4) with
      | some mb => tangleModeFromBytes mb
      | none => none
    ignore := pvalBool (lookupAsg l 6)
    pre := pvalBytes (lookupAsg l 1)
    post := pvalBytes (lookupAsg l 2)
    code := pvalBytes (lookupAsg l 5) }

/-- Modelled from the spec: the rendering of a `TangleMode` back to its
surface byte string.  The repository contains only the parser
`TangleMode::from_bytes`; the renderer is the inverse map that §8 of the
spec quantifies its round-trip property over (`overwrite`, `append`,
`prepend`, `insert[X]`). -/
def renderMode : TangleMode → Bytes
  | .Overwrite => strBytes ("overwrite")
  | .Append => strBytes ("append")
  | .Prepend => strBytes ("prepend")
  | .Insert x => strBytes ("insert[") ++ x ++ strBytes ("]")

/-- The modes whose rendering lies in the round-trip set of §8: `insert`
markers must be nonempty and must not contain `]` (byte 93). -/
def validMode : TangleMode → Prop
  | .Insert x => x ≠ [] ∧ ∀ c ∈ x, c ≠ 93
  | _ => True

instance : DecidablePred validMode := by
  intro m
  cases m <;> simp [validMode] <;> infer_instance

/-! ## General lemmas about the embedded combinators -/

theorem tagP_eq_some {t i r : Bytes} : tagP t i = some r ↔ i = t ++ r := by
  constructor
  · intro h
    unfold tagP at h
    by_cases hp : t.isPrefixOf i
    · rw [if_pos hp] at h
      obtain ⟨s, rfl⟩ := List.isPrefixOf_iff_prefix.mp hp
      have hs : s = r := by simpa using h
      rw [hs]
    · rw [if_neg hp] at h
      cases h
  · intro h
    subst h
    unfold tagP
    rw [if_pos (List.isPrefixOf_iff_prefix.mpr ⟨r, rfl⟩)]
    simp

theorem tagP_append (t r : Bytes) : tagP t (t ++ r) = some r :=
  tagP_eq_some.mpr rfl

theorem tagP_cons_ne {a b : Nat} (t l : Bytes) (h : a ≠ b) :
    tagP (a :: t) (b :: l) = none := by
  unfold tagP
  rw [if_neg]
  intro hp
  obtain ⟨s, hs⟩ := List.isPrefixOf_iff_prefix.mp hp
  rw [List.cons_append] at hs
  injection hs with h1 _
  exact h h1

theorem takeUntilP_cons (t : Bytes) (c : Nat) (rest : Bytes) :
    takeUntilP t (c :: rest) =
      if t.isPrefixOf (c :: rest) then some (c :: rest, [])
      else
        match takeUntilP t rest with
        | some (rem, pre) => some (rem, c :: pre)
        | none => none := rfl

theorem locateMatch_cons (p : Bytes → Bool) (c : Nat) (rest : Bytes) :
    locateMatch p (c :: rest) =
      if p (c :: rest) then some 0
      else
        match locateMatch p rest with
        | some n => some (n + 1)
        | none => none := rfl

theorem takeUntilP_spec {t : Bytes} :
    ∀ {i rem pre : Bytes}, takeUntilP t i = some (rem, pre) →
      i = pre ++ rem ∧ t <+: rem ∧
        ∀ j, j < pre.length → ¬ t <+: (i.drop j) := by
  intro i
  induction i with
  | nil => intro rem pre h; simp [takeUntilP] at h
  | cons c rest ih =>
    intro rem pre h
    rw [takeUntilP_cons] at h
    by_cases hp : t.isPrefixOf (c :: rest)
    · rw [if_pos hp] at h
      injection h with h
      injection h with h1 h2
      subst h1; subst h2
      exact ⟨rfl, List.isPrefixOf_iff_prefix.mp hp, by intro j hj; simp at hj⟩
    · rw [if_neg hp] at h
      match hrec : takeUntilP t rest with
      | some (rem2, pre2) =>
        rw [hrec] at h
        injection h with h
        injection h with h1 h2
        subst h1
        obtain ⟨ih1, ih2, ih3⟩ := ih hrec
        subst h2
        refine ⟨by simp [ih1], ih2, ?_⟩
        intro j hj
        cases j with
        | zero =>
          intro hpre
          exact hp (List.isPrefixOf_iff_prefix.mpr (by simpa using hpre))
        | succ k =>
          simp only [List.length_cons] at hj
          simpa using ih3 k (by omega)
      | none => rw [hrec] at h; cases h

/-- The first-occurrence property of `takeUntilP` specialised to a
single-byte pattern with a clean payload: splitting `x ++ b :: r` at the
first `b` when `b` does not occur in `x`. -/
theorem takeUntilP_singleton {b : Nat} :
    ∀ {x r : Bytes}, b ∉ x → takeUntilP [b] (x ++ b :: r) = some (b :: r, x) := by
  intro x
  induction x with
  | nil =>
    intro r _
    rw [List.nil_append, takeUntilP_cons]
    have hpre : ([b] : Bytes).isPrefixOf (b :: r) = true := by
      show (b == b && List.isPrefixOf [] r) = true
      simp
    rw [if_pos hpre]
  | cons c rest ih =>
    intro r hmem
    have hcb : b ≠ c := fun h => hmem (h ▸ List.mem_cons_self c rest)
    rw [List.cons_append, takeUntilP_cons]
    have hpre : ([b] : Bytes).isPrefixOf (c :: (rest ++ b :: r)) = false := by
      show (b == c && List.isPrefixOf [] (rest ++ b :: r)) = false
      simp [hcb]
    rw [if_neg (by simp [hpre]), ih (fun hm => hmem (List.mem_cons_of_mem c hm))]

theorem locateMatch_spec {p : Bytes → Bool} :
    ∀ {l : Bytes} {n : Nat}, locateMatch p l = some n →
      p (l.drop n) = true ∧ ∀ j, j < n → p (l.drop j) = false := by
  intro l
  induction l with
  | nil => intro n h; simp [locateMatch] at h
  | cons c rest ih =>
    intro n h
    rw [locateMatch_cons] at h
    by_cases hp : p (c :: rest)
    · simp [hp] at h
      subst h
      exact ⟨by simpa using hp, by intro j hj; omega⟩
    · simp [hp] at h
      match hrec : locateMatch p rest with
      | some m =>
        rw [hrec] at h
        simp at h
        subst h
        obtain ⟨ih1, ih2⟩ := ih hrec
        refine ⟨by simpa using ih1, ?_⟩
        intro j hj
        cases j with
        | zero => simpa using hp
        | succ k => simpa using ih2 k (by omega)
      | none => rw [hrec] at h; simp at h

/-! ## C1 -/

/-- C1: the claim states that inputs without headings (including the empty
input) parse to `Ok` with all blocks attached to the implicit level-0 root.
The code instead panics: after the scan ends, `Document::from_contents`
executes `section_frame[section.part.level].as_mut().unwrap()` with
`section.part.level = 0`, and `section_frame[0]` is still `None` because
only heading events ever populate the frame.  Both the empty input and a
plain text input reach that `unwrap` and panic, while the same text under
a heading parses fine. -/
theorem c1_no_heading_input_panics :
    documentFromContents stdParse true [] = Outcome.panic ∧
      documentFromContents stdParse true (strBytes ("hello\n")) = Outcome.panic ∧
      (documentFromContents stdParse true (strBytes ("# h\nhello\n"))).isOk = true :=
  ⟨rfl, rfl, rfl⟩

/-! ## C2 -/

/-- C2 counterexample: the claim asserts that no emitted `Code` has
`effective.ignore == true`, for fenced blocks and for inline-code
annotations alike.  The inline-code path (`ScanResult::Properties` with a
`code=` payload) appends its block without any `ignore` check: this parse
emits exactly one block, and its effective `ignore` is `true`. -/
theorem c2_counterexample :
    ((documentFromContents stdParse true
        (strBytes ("# H\n<?btxt ignore=true code=\"x\" ?>\n"))).blocksD).map
      (fun c => c.properties.ignore) = [some true] := by
  rfl

/-- C2 amended: the ignore-consistency invariant holds for the fenced-code
path only: every block present after a `ScanResult::Code` transition was
either already present or has resolved `ignore ≠ some true`. -/
theorem c2_amended_fenced_ignore (part : CodePart) (sec : Section)
    (blocks : List Code) (c : Code) (hc : c ∈ (handleCode part sec blocks).2) :
    c ∈ blocks ∨ c.properties.ignore ≠ some true := by
  cases hig : (getCodeProps sec.props part.lang).ignore.getD false with
  | true => simp [handleCode, hig] at hc; exact Or.inl hc
  | false =>
    simp [handleCode, hig] at hc
    rcases hc with hmem | hnew
    · exact Or.inl hmem
    · refine Or.inr ?_
      rw [hnew]
      intro hcontra
      simp at hcontra
      rw [hcontra] at hig
      simp at hig

theorem c2_amended_fenced_ignore_witness :
    (⟨getCodeProps rootSection.props none, ⟨strBytes ("y"), none⟩⟩ : Code) ∈ [] ∨
      (⟨getCodeProps rootSection.props none, ⟨strBytes ("y"), none⟩⟩ : Code).properties.ignore
        ≠ some true :=
  c2_amended_fenced_ignore ⟨strBytes ("y"), none⟩ rootSection []
    ⟨getCodeProps rootSection.props none, ⟨strBytes ("y"), none⟩⟩ (by decide)

/-! ## C3 -/

/-- One-step unfolding of the scanner at positive fuel. -/
theorem scanF_succ (p : Bytes → LineOut) (data : Bytes) (strict : Bool)
    (fuel s0 s1 : Nat) :
    scanF p data strict (fuel + 1) s0 s1 =
      if data.length ≤ s1 then .ok (.endR, s1)
      else
        match p ((data.take (newEndAt data s1)).drop s0) with
        | .matched _ r => .ok (r, newEndAt data s1)
        | .partialMatch => scanF p data strict fuel s0 (newEndAt data s1)
        | .errNoMatch => scanF p data strict fuel (newEndAt data s1) (newEndAt data s1)
        | .failInvalid =>
          if strict then .error .invalidProperties
          else scanF p data strict fuel (newEndAt data s1) (newEndAt data s1) := rfl

/-- Every error the scanner can return is the bare `InvalidProperties`
value. -/
theorem scanF_error_invalid (p : Bytes → LineOut) (data : Bytes) (strict : Bool) :
    ∀ fuel s0 s1 e, scanF p data strict fuel s0 s1 = .error e →
      e = BetwixtParseError.invalidProperties := by
  intro fuel
  induction fuel with
  | zero => intro s0 s1 e h; cases h
  | succ n ih =>
    intro s0 s1 e h
    rw [scanF_succ] at h
    by_cases hlen : data.length ≤ s1
    · rw [if_pos hlen] at h; cases h
    · rw [if_neg hlen] at h
      cases hp : p ((data.take (newEndAt data s1)).drop s0) with
      | matched rest r => rw [hp] at h; cases h
      | partialMatch => rw [hp] at h; exact ih _ _ _ h
      | errNoMatch => rw [hp] at h; exact ih _ _ _ h
      | failInvalid =>
        rw [hp] at h
        by_cases hs : strict = true
        · rw [if_pos hs] at h
          injection h with h
          exact h.symm
        · rw [if_neg hs] at h
          exact ih _ _ _ h

/-- The closing loop never produces a returned error. -/
theorem finalLoop_ne_err (blocks : List Code) :
    ∀ k frame e, finalLoop blocks frame k ≠ .err e := by
  intro k
  induction k with
  | zero => intro frame e h; cases h
  | succ m ih =>
    intro frame e h
    rw [finalLoop] at h
    cases hg : fget frame m with
    | none => rw [hg] at h; exact ih _ _ h
    | some slot =>
      cases slot with
      | none => rw [hg] at h; exact ih _ _ h
      | some child =>
        rw [hg] at h
        dsimp only at h
        cases hg2 : fget (frame.set m none) child.part.level with
        | none => rw [hg2] at h; cases h
        | some slot2 =>
          cases slot2 with
          | none => rw [hg2] at h; cases h
          | some parent => rw [hg2] at h; exact ih _ _ h

/-- `finalize` never produces a returned error. -/
theorem finalize_ne_err (blocks : List Code) (sec : Section) (frame : Frame)
    (e : BetwixtParseError) : finalize blocks sec frame ≠ .err e := by
  unfold finalize
  cases hg : fget frame sec.part.level with
  | none => intro h; cases h
  | some slot =>
    cases slot with
    | none => intro h; cases h
    | some parent => exact finalLoop_ne_err _ _ _ _

/-- One-step unfolding of the builder loop at positive fuel. -/
theorem fcLoop_succ (p : Bytes → LineOut) (strict : Bool) (data : Bytes)
    (fuel pos : Nat) (blocks : List Code) (sec : Section) (frame : Frame) :
    fcLoop p strict data (fuel + 1) pos blocks sec frame =
      match scanF p data strict (data.length + 2) pos pos with
      | .error e => .err e
      | .ok (r, pos2) =>
        match r with
        | .endR => finalize blocks sec frame
        | .sectionR new =>
          match handleSection new sec frame with
          | none => .panic
          | some (sec2, frame2) => fcLoop p strict data fuel pos2 blocks sec2 frame2
        | .codeR part =>
          fcLoop p strict data fuel pos2 (handleCode part sec blocks).2
            (handleCode part sec blocks).1 frame
        | .propsR lang props =>
          fcLoop p strict data fuel pos2 (handleProps lang props sec blocks).2
            (handleProps lang props sec blocks).1 frame := rfl

/-- Every returned error of the whole parse is the bare
`InvalidProperties` value. -/
theorem fcLoop_error_invalid (p : Bytes → LineOut) (strict : Bool) (data : Bytes) :
    ∀ fuel pos blocks sec frame e,
      fcLoop p strict data fuel pos blocks sec frame = .err e →
      e = BetwixtParseError.invalidProperties := by
  intro fuel
  induction fuel with
  | zero => intro pos blocks sec frame e h; cases h
  | succ n ih =>
    intro pos blocks sec frame e h
    rw [fcLoop_succ] at h
    cases hscan : scanF p data strict (data.length + 2) pos pos with
    | error e2 =>
      rw [hscan] at h
      injection h with h
      rw [← h]
      exact scanF_error_invalid p data strict _ _ _ _ hscan
    | ok pr =>
      obtain ⟨r, pos2⟩ := pr
      rw [hscan] at h
      cases r with
      | endR =>
        dsimp only at h
        exact absurd h (finalize_ne_err _ _ _ _)
      | sectionR new =>
        dsimp only at h
        cases hs : handleSection new sec frame with
        | none => rw [hs] at h; cases h
        | some sf =>
          obtain ⟨sec2, frame2⟩ := sf
          rw [hs] at h
          exact ih _ _ _ _ _ h
      | codeR part =>
        dsimp only at h
        exact ih _ _ _ _ _ h
      | propsR lang props =>
        dsimp only at h
        exact ih _ _ _ _ _ h

/-- C3 counterexample: the claim requires a strict-mode body failure to
return an error carrying the 1-based start and end lines of the construct
and the literal bytes of the offending annotation.  These two inputs have
their offending annotation at different lines (line 1 versus line 3) with
different literal bytes, yet both parses return the very same bare error
value `InvalidProperties`, which therefore carries neither line numbers
nor any bytes. -/
theorem c3_counterexample :
    documentFromContents stdParse true (strBytes ("<?btxt tog=\"bad\" ?>\n")) =
        Outcome.err BetwixtParseError.invalidProperties ∧
      documentFromContents stdParse true (strBytes ("# H\nx\n<?btxt zz=1 ?>\n")) =
        Outcome.err BetwixtParseError.invalidProperties :=
  ⟨rfl, rfl⟩

/-- C3 amended: in strict mode, an annotation whose opener and closer match
but whose body fails to parse makes the recogniser fail with
`InvalidProperties`, and the parse returns exactly that bare error: the
same data-free value for every such failure, with no line numbers and no
literal bytes attached. -/
theorem c3_amended_bare_invalid_error :
    (∀ stok etok i input rem body : Bytes,
      tagP stok i = some input →
      takeUntilP etok (betwixtQualifier input).2 = some (rem, body) →
      propertiesP body = none →
      betwixtP stok etok i = LineOut.failInvalid) ∧
    (∀ (p : Bytes → LineOut) (data : Bytes) (e : BetwixtParseError),
      documentFromContents p true data = Outcome.err e →
      e = BetwixtParseError.invalidProperties) := by
  constructor
  · intro stok etok i input rem body h1 h2 h3
    unfold betwixtP
    rw [h1]
    dsimp only
    rw [h2]
    dsimp only
    rw [h3]
  · intro p data e h
    exact fcLoop_error_invalid p true data _ _ _ _ _ _ h

theorem c3_amended_bare_invalid_error_witness :
    betwixtP (strBytes ("<?btxt")) (strBytes ("?>"))
        (strBytes ("<?btxt tog=\"bad\" ?>")) = LineOut.failInvalid ∧
      BetwixtParseError.invalidProperties = BetwixtParseError.invalidProperties :=
  ⟨c3_amended_bare_invalid_error.1 (strBytes ("<?btxt")) (strBytes ("?>"))
      (strBytes ("<?btxt tog=\"bad\" ?>")) (strBytes (" tog=\"bad\" ?>"))
      (strBytes ("?>")) (strBytes (" tog=\"bad\" ")) (by decide) (by decide) (by decide),
    c3_amended_bare_invalid_error.2 stdParse (strBytes ("<?btxt tog=\"bad\" ?>\n"))
      BetwixtParseError.invalidProperties rfl⟩

/-! ## C4 -/

/-- C4 counterexample: the claim says an inline-code annotation's `code=`
payload is not retained for blocks resolved later.  After
`<?btxt code="x" ?>`, the later fenced block's effective properties still
carry `code = some "x"` (the second entry below), exactly what the same
annotation without `code=` would not have produced. -/
theorem c4_counterexample :
    ((documentFromContents stdParse true
        (strBytes ("# H\n<?btxt code=\"x\" ?>\n```\nfoo\n```\n"))).blocksD).map
      (fun c => c.properties.code) = [some (strBytes ("x")), some (strBytes ("x"))] := by
  rfl

theorem lookupL_insertL (k : Bytes) (v : Properties) :
    ∀ m : LangMap, lookupL k (insertL k v m) = some v := by
  intro m
  induction m with
  | nil => simp [insertL, lookupL]
  | cons hd tl ih =>
    obtain ⟨k2, v2⟩ := hd
    by_cases hk : k2 = k
    · simp [insertL, hk, lookupL]
    · simp [insertL, hk, lookupL, ih]

/-- C4 amended: the `code=` payload IS retained by the environment update:
`update` stores the incoming property set wholesale (and `merge` never
clears the incoming `code` field), so both the global and the
language-scoped environment keep the payload, and the effective properties
resolved for later blocks in that environment carry it in their `code`
field until a later update overwrites it. -/
theorem c4_amended_code_payload_retained (coll : PropertiesCollection)
    (props : Properties) (x l : Bytes) (h : props.code = some x) :
    (updateColl coll none props).global.code = some x ∧
      (getCodeProps (updateColl coll none props) none).code = some x ∧
      (getCodeProps (updateColl coll (some l) props) (some l)).code = some x := by
  refine ⟨?_, ?_, ?_⟩
  · simp [updateColl, mergeP, h]
  · simp [updateColl, getCodeProps, mergeP, h]
  · cases hl : lookupL l coll.languages with
    | none => simp [updateColl, getCodeProps, hl, lookupL_insertL, mergeP, h]
    | some existing => simp [updateColl, getCodeProps, hl, lookupL_insertL, mergeP, h]

/-! ## C5 -/

theorem marksTake (n : Nat) :
    (List.replicate n 35 ++ strBytes (" T\n")).takeWhile (fun c => c = (35 : Nat)) =
      List.replicate n 35 := by
  induction n with
  | zero => rfl
  | succ m ih =>
    rw [List.replicate_succ, List.cons_append, List.takeWhile_cons]
    simp [ih]

theorem marksDrop (n : Nat) :
    (List.replicate n 35 ++ strBytes (" T\n")).dropWhile (fun c => c = (35 : Nat)) =
      strBytes (" T\n") := by
  induction n with
  | zero => rfl
  | succ m ih =>
    rw [List.replicate_succ, List.cons_append, List.dropWhile_cons]
    simp [ih]

/-- C5 counterexample: the claim says a line with ten or more marker
characters is treated as non-heading text, producing no `Section`, with the
parse otherwise proceeding normally.  In fact the heading recogniser
produces a level-10 `Section`, and the builder then indexes
`section_frame[10]` out of bounds: the parse aborts fatally instead of
proceeding. -/
theorem c5_counterexample :
    documentFromContents stdParse true (strBytes ("########## T\n")) = Outcome.panic ∧
      sectionFn 35 (strBytes ("########## T\n")) =
        LineOut.matched (strBytes ("T\n"))
          (ScanResult.sectionR ⟨some (strBytes ("T")), 10⟩) :=
  ⟨rfl, rfl⟩

/-- C5 amended: the heading recogniser is unbounded — a line of `n ≥ 1`
marker characters, whitespace and text matches as a level-`n` heading for
every `n`, including `n ≥ 10` — and the ten-slot builder frame makes any
heading of level 10 or more abort the build (the Rust code panics on the
out-of-bounds `section_frame` index), rather than treating the line as
text. -/
theorem c5_amended_deep_heading_fatal :
    (∀ n, 1 ≤ n →
      sectionFn 35 (List.replicate n 35 ++ strBytes (" T\n")) =
        LineOut.matched (strBytes ("T\n"))
          (ScanResult.sectionR ⟨some (strBytes ("T")), n⟩)) ∧
    (∀ (new : SectionPart) (sec : Section) (frame : Frame),
      frame.length = 10 → 10 ≤ new.level → handleSection new sec frame = none) := by
  constructor
  · intro n hn
    unfold sectionFn
    rw [marksTake, marksDrop]
    have hne : List.replicate n 35 ≠ [] := by
      intro hcontra
      have := congrArg List.length hcontra
      simp at this
      omega
    rw [if_neg hne, if_neg (by decide)]
    rw [show takeUntil1P (strBytes ("\n")) ((strBytes (" T\n")).dropWhile isSpaceB) =
        some (strBytes ("\n"), strBytes ("T")) from rfl]
    dsimp only
    rw [List.length_replicate]
    rfl
  · intro new sec frame hlen hlev
    unfold handleSection
    by_cases h1 : new.level = sec.part.level
    · rw [if_pos h1]
      have hg : fget frame sec.part.level = none := by
        unfold fget
        rw [List.get?_eq_none]
        omega
      rw [hg]
    · rw [if_neg h1]
      by_cases h2 : new.level < sec.part.level
      · rw [if_pos h2]
        have hg : fget frame sec.part.level = none := by
          unfold fget
          rw [List.get?_eq_none]
          omega
        rw [hg]
      · rw [if_neg h2]
        have hg : fget frame new.level = none := by
          unfold fget
          rw [List.get?_eq_none]
          omega
        rw [hg]

theorem c5_amended_deep_heading_fatal_witness :
    sectionFn 35 (List.replicate 10 35 ++ strBytes (" T\n")) =
        LineOut.matched (strBytes ("T\n"))
          (ScanResult.sectionR ⟨some (strBytes ("T")), 10⟩) ∧
      handleSection ⟨some (strBytes ("T")), 10⟩ rootSection initFrame = none :=
  ⟨c5_amended_deep_heading_fatal.1 10 (by decide),
    c5_amended_deep_heading_fatal.2 ⟨some (strBytes ("T")), 10⟩ rootSection initFrame
      (by decide) (by decide)⟩

/-! ## C6 -/

/-- C6 counterexample: the claim says a fenced block ends at the first
closing-fence LINE (a line consisting of the delimiter, optional
whitespace and a newline).  Here the first closing-fence line is the
fourth line, but the block already terminates at the mid-line occurrence
of ``` ``` `` at the end of `foo ``` ``, so the contents are `"foo "` and
not the claim's `"foo ```\nbar\n"`. -/
theorem c6_counterexample :
    codeP (strBytes ("```")) (strBytes ("```"))
        (strBytes ("```rust\nfoo ```\nbar\n```\n")) =
      LineOut.matched (strBytes ("\nbar\n```\n"))
        (ScanResult.codeR ⟨strBytes ("foo "), some (strBytes ("rust"))⟩) ∧
      strBytes ("foo ") ≠ strBytes ("foo ```\nbar\n") :=
  ⟨rfl, by decide⟩

/-- C6 amended: a fenced block terminates at the first byte position — at
any offset, not necessarily at the start of a line — where the closing
delimiter followed by optional horizontal whitespace and a newline
matches; the contents are exactly the bytes strictly between the opening
line's newline and that position (so they include the newline preceding a
line-initial closing fence, and no terminator match occurs anywhere
earlier in them). -/
theorem c6_amended_first_terminator_position (cs ce i rest : Bytes) (part : CodePart)
    (h : codeP cs ce i = LineOut.matched rest (ScanResult.codeR part)) :
    ∃ r1 input endIdx,
      tagP cs i = some r1 ∧
      tagP (strBytes ("\n")) ((r1.dropWhile isAlphaB).dropWhile isSpaceB) = some input ∧
      locateMatch (termMatch ce) input = some endIdx ∧
      part.contents = input.take endIdx ∧
      termMatch ce (input.drop endIdx) = true ∧
      ∀ j, j < endIdx → termMatch ce (input.drop j) = false := by
  unfold codeP at h
  cases h1 : tagP cs i with
  | none => rw [h1] at h; cases h
  | some r1 =>
    rw [h1] at h
    dsimp only at h
    cases h2 : tagP (strBytes ("\n")) ((r1.dropWhile isAlphaB).dropWhile isSpaceB) with
    | none => rw [h2] at h; cases h
    | some input =>
      rw [h2] at h
      dsimp only at h
      cases h3 : locateMatch (termMatch ce) input with
      | none => rw [h3] at h; cases h
      | some endIdx =>
        rw [h3] at h
        dsimp only at h
        injection h with ha hb
        injection hb with hb2
        obtain ⟨hloc1, hloc2⟩ := locateMatch_spec h3
        exact ⟨r1, input, endIdx, rfl, h2, h3, by rw [← hb2], hloc1, hloc2⟩

theorem c6_amended_first_terminator_position_witness :
    ∃ r1 input endIdx,
      tagP (strBytes ("```")) (strBytes ("```rust\nfoo ```\nbar\n```\n")) = some r1 ∧
      tagP (strBytes ("\n")) ((r1.dropWhile isAlphaB).dropWhile isSpaceB) = some input ∧
      locateMatch (termMatch (strBytes ("```"))) input = some endIdx ∧
      (strBytes ("foo ") : Bytes) = input.take endIdx ∧
      termMatch (strBytes ("```")) (input.drop endIdx) = true ∧
      ∀ j, j < endIdx → termMatch (strBytes ("```")) (input.drop j) = false :=
  c6_amended_first_terminator_position (strBytes ("```")) (strBytes ("```"))
    (strBytes ("```rust\nfoo ```\nbar\n```\n")) (strBytes ("\nbar\n```\n"))
    ⟨strBytes ("foo "), some (strBytes ("rust"))⟩ (by decide)

theorem c4_amended_code_payload_retained_witness :
    (updateColl ⟨{}, []⟩ none { code := some (strBytes ("x")) }).global.code
        = some (strBytes ("x")) ∧
      (getCodeProps (updateColl ⟨{}, []⟩ none { code := some (strBytes ("x")) }) none).code
        = some (strBytes ("x")) ∧
      (getCodeProps (updateColl ⟨{}, []⟩ (some (strBytes ("py")))
          { code := some (strBytes ("x")) }) (some (strBytes ("py")))).code
        = some (strBytes ("x")) :=
  c4_amended_code_payload_retained ⟨{}, []⟩ { code := some (strBytes ("x")) }
    (strBytes ("x")) (strBytes ("py")) rfl

/-! ## C8 -/

/-- Characterisation of the `alt` branch of `TangleMode::from_bytes`: a
success consumes exactly the rendering of the returned mode, and the mode
is valid (nonempty `insert` marker without `]`). -/
theorem tmBranch_eq_some :
    ∀ {b rest : Bytes} {m : TangleMode}, tmBranch b = some (rest, m) →
      b = renderMode m ++ rest ∧ validMode m := by
  intro b rest m h
  unfold tmBranch at h
  cases h1 : tagP (strBytes ("overwrite")) b with
  | some r =>
    rw [h1] at h
    dsimp only at h
    injection h with h
    injection h with hr hm
    subst hr
    subst hm
    exact ⟨tagP_eq_some.mp h1, trivial⟩
  | none =>
    rw [h1] at h
    dsimp only at h
    cases h2 : tagP (strBytes ("append")) b with
    | some r =>
      rw [h2] at h
      dsimp only at h
      injection h with h
      injection h with hr hm
      subst hr
      subst hm
      exact ⟨tagP_eq_some.mp h2, trivial⟩
    | none =>
      rw [h2] at h
      dsimp only at h
      cases h3 : tagP (strBytes ("prepend")) b with
      | some r =>
        rw [h3] at h
        dsimp only at h
        injection h with h
        injection h with hr hm
        subst hr
        subst hm
        exact ⟨tagP_eq_some.mp h3, trivial⟩
      | none =>
        rw [h3] at h
        dsimp only at h
        cases h4 : tagP (strBytes ("insert")) b with
        | none => rw [h4] at h; cases h
        | some rest1 =>
          rw [h4] at h
          dsimp only at h
          cases h5 : tagP (strBytes ("[")) rest1 with
          | none => rw [h5] at h; cases h
          | some r2 =>
            rw [h5] at h
            dsimp only at h
            cases h6 : takeUntil1P (strBytes ("]")) r2 with
            | none => rw [h6] at h; cases h
            | some pr =>
              obtain ⟨rem, marker⟩ := pr
              rw [h6] at h
              dsimp only at h
              cases h7 : tagP (strBytes ("]")) rem with
              | none => rw [h7] at h; cases h
              | some r3 =>
                rw [h7] at h
                dsimp only at h
                injection h with h
                injection h with hr hm
                subst hr
                subst hm
                -- unpack take_until1
                unfold takeUntil1P at h6
                cases h6u : takeUntilP (strBytes ("]")) r2 with
                | none => rw [h6u] at h6; cases h6
                | some pr2 =>
                  obtain ⟨rem2, pre2⟩ := pr2
                  rw [h6u] at h6
                  dsimp only at h6
                  by_cases hpre : pre2 = []
                  · rw [if_pos hpre] at h6; cases h6
                  · rw [if_neg hpre] at h6
                    injection h6 with h6
                    injection h6 with hrem hmark
                    subst hrem
                    subst hmark
                    obtain ⟨hsplit, _, hnotbefore⟩ := takeUntilP_spec h6u
                    have hrem93 : rem2 = strBytes ("]") ++ r3 := tagP_eq_some.mp h7
                    constructor
                    · rw [tagP_eq_some.mp h4, tagP_eq_some.mp h5, hsplit, hrem93]
                      simp only [renderMode, List.append_assoc]
                      rfl
                    · refine ⟨hpre, ?_⟩
                      intro c hc hc93
                      subst hc93
                      obtain ⟨j, hj, hget⟩ := List.mem_iff_getElem.mp hc
                      refine hnotbefore j hj ?_
                      have hjr2 : j < r2.length := by
                        rw [hsplit, List.length_append]
                        omega
                      have hjr2b : j < (pre2 ++ rem2).length := by
                        rw [← hsplit]
                        exact hjr2
                      rw [hsplit]
                      rw [List.drop_eq_getElem_cons hjr2b]
                      have hgetapp : (pre2 ++ rem2)[j] = pre2[j] :=
                        List.getElem_append_left hj
                      rw [hgetapp, hget]
                      exact ⟨_, rfl⟩

/-- C8: `TangleMode::from_bytes` is a bijection between the byte strings
`overwrite`, `append`, `prepend`, `insert[X]` (X nonempty, without `]`)
and the corresponding `TangleMode` values (the renderer is modelled from
the spec, see `renderMode`): every successful parse consumes the whole
input and renders back to it, and every byte string outside the image of
`renderMode` on valid modes fails to parse. -/
theorem c8_tangle_mode_bijection :
    (∀ (b : Bytes) (m : TangleMode), tangleModeFromBytes b = some m →
      validMode m ∧ b = renderMode m) ∧
    (∀ m : TangleMode, validMode m → tangleModeFromBytes (renderMode m) = some m) := by
  constructor
  · intro b m h
    unfold tangleModeFromBytes at h
    cases hbr : tmBranch b with
    | none => rw [hbr] at h; cases h
    | some pr =>
      obtain ⟨rest, m0⟩ := pr
      rw [hbr] at h
      dsimp only at h
      by_cases hrest : rest = []
      · rw [if_pos hrest] at h
        injection h with hm
        subst hm
        subst hrest
        obtain ⟨hb, hv⟩ := tmBranch_eq_some hbr
        rw [List.append_nil] at hb
        exact ⟨hv, hb⟩
      · rw [if_neg hrest] at h
        cases h
  · intro m hv
    cases m with
    | Overwrite => decide
    | Append => decide
    | Prepend => decide
    | Insert x =>
      obtain ⟨hne, hno⟩ := hv
      have hno93 : (93 : Nat) ∉ x := fun hmem => hno 93 hmem rfl
      have hb1 : tmBranch (renderMode (TangleMode.Insert x)) =
          some ([], TangleMode.Insert x) := by
        unfold tmBranch
        rw [show renderMode (TangleMode.Insert x) =
            (105 : Nat) :: 110 :: 115 :: 101 :: 114 :: 116 :: 91 :: (x ++ [93]) from rfl]
        rw [show (strBytes ("overwrite") : Bytes) =
            (111 : Nat) :: strBytes ("verwrite") from rfl]
        rw [tagP_cons_ne _ _ (by decide)]
        dsimp only
        rw [show (strBytes ("append") : Bytes) = (97 : Nat) :: strBytes ("ppend") from rfl]
        rw [tagP_cons_ne _ _ (by decide)]
        dsimp only
        rw [show (strBytes ("prepend") : Bytes) = (112 : Nat) :: strBytes ("repend") from rfl]
        rw [tagP_cons_ne _ _ (by decide)]
        dsimp only
        rw [show ((105 : Nat) :: 110 :: 115 :: 101 :: 114 :: 116 :: 91 :: (x ++ [93]) : Bytes) =
            strBytes ("insert") ++ ((91 : Nat) :: (x ++ [93])) from rfl]
        rw [tagP_append]
        dsimp only
        rw [show ((91 : Nat) :: (x ++ [93]) : Bytes) = strBytes ("[") ++ (x ++ [93]) from rfl]
        rw [tagP_append]
        dsimp only
        rw [show (strBytes ("]") : Bytes) = [93] from rfl]
        unfold takeUntil1P
        rw [takeUntilP_singleton hno93]
        dsimp only
        rw [if_neg hne]
        dsimp only
        rw [show tagP ([93] : Bytes) ([93] : Bytes) = some [] from rfl]
      unfold tangleModeFromBytes
      rw [hb1]
      dsimp only
      rw [if_pos rfl]

/-! ## C9 -/

theorem handleProps_part (lang : Option Bytes) (props : Properties) (sec : Section)
    (blocks : List Code) : (handleProps lang props sec blocks).1.part = sec.part := by
  cases sec with
  | mk p c idxs cs =>
    cases hc : props.code with
    | some cb =>
      simp [handleProps, hc, Section.addIdx, Section.withProps, Section.part, Section.props]
    | none =>
      simp [handleProps, hc, Section.withProps, Section.part, Section.props]

theorem applyUpdates_part (ups : List (Option Bytes × Properties)) :
    ∀ (sec : Section) (blocks : List Code),
      (applyUpdates ups (sec, blocks)).1.part = sec.part := by
  induction ups with
  | nil => intro sec blocks; rfl
  | cons u tl ih =>
    intro sec blocks
    unfold applyUpdates at *
    rw [List.foldl_cons]
    have := ih (handleProps u.1 u.2 sec blocks).1 (handleProps u.1 u.2 sec blocks).2
    rw [show (handleProps u.1 u.2 sec blocks).1 = ((handleProps u.1 u.2 sec blocks).1,
        (handleProps u.1 u.2 sec blocks).2).1 from rfl] at this
    rw [show ((handleProps u.1 u.2 sec blocks).1, (handleProps u.1 u.2 sec blocks).2) =
        handleProps u.1 u.2 sec blocks from rfl] at this
    rw [this]
    exact handleProps_part u.1 u.2 sec blocks

/-- C9: sibling insulation.  Property updates (of either kind: with or
without an inline `code=` payload) mutate only the current section, never
the frame of open parents; when a heading then closes the current section
and opens a sibling at the same level, the sibling's property environment
is exactly the shared parent's environment, so nothing the closed sibling
set can reach the new sibling's code blocks. -/
theorem c9_sibling_insulation (frame : Frame) (parent sec : Section)
    (new : SectionPart) (ups : List (Option Bytes × Properties)) (blocks : List Code)
    (hpar : fget frame sec.part.level = some (some parent))
    (hlev : new.level = sec.part.level) :
    (handleSection new (applyUpdates ups (sec, blocks)).1 frame).map
        (fun p => p.1.props) = some parent.props := by
  have hpart : (applyUpdates ups (sec, blocks)).1.part = sec.part :=
    applyUpdates_part ups sec blocks
  unfold handleSection
  rw [hpart, if_pos hlev, hpar]
  rfl

theorem c9_sibling_insulation_witness :
    (handleSection ⟨some (strBytes ("B")), 1⟩
        (applyUpdates [(none, { filename := some (strBytes ("a")) })]
          (Section.new ⟨some (strBytes ("A")), 1⟩ rootSection.props, [])).1
        (initFrame.set 1 (some rootSection))).map (fun p => p.1.props) =
      some rootSection.props :=
  c9_sibling_insulation (initFrame.set 1 (some rootSection)) rootSection
    (Section.new ⟨some (strBytes ("A")), 1⟩ rootSection.props)
    ⟨some (strBytes ("B")), 1⟩ [(none, { filename := some (strBytes ("a")) })] []
    rfl rfl

/-! ## C10 -/

/-- C10: an annotation opener immediately followed by `+` and a
non-alphanumeric byte still matches, reporting the empty byte string as
its language qualifier (first conjunct, with the concrete input
`<?btxt+ filename="x" ?>`); a fenced code block's language tag, when
present, is never empty (second conjunct, `alpha1` requires at least one
letter); and a language map entry stored under the empty key can never be
resolved by a block with a nonempty language (third conjunct). -/
theorem c10_empty_lang_qualifier :
    (betwixtP (strBytes ("<?btxt")) (strBytes ("?>"))
        (strBytes ("<?btxt+ filename=\"x\" ?>")) =
      LineOut.matched [] (ScanResult.propsR (some [])
        { filename := some (strBytes ("x")) })) ∧
    (∀ (cs ce i rest : Bytes) (part : CodePart) (l : Bytes),
      codeP cs ce i = LineOut.matched rest (ScanResult.codeR part) →
      part.lang = some l → l ≠ []) ∧
    (∀ (g P : Properties) (l : Bytes), l ≠ [] →
      getCodeProps ⟨g, [([], P)]⟩ (some l) = g) := by
  refine ⟨by decide, ?_, ?_⟩
  · intro cs ce i rest part l h hl
    unfold codeP at h
    cases h1 : tagP cs i with
    | none => rw [h1] at h; cases h
    | some r1 =>
      rw [h1] at h
      dsimp only at h
      cases h2 : tagP (strBytes ("\n")) ((r1.dropWhile isAlphaB).dropWhile isSpaceB) with
      | none => rw [h2] at h; cases h
      | some input =>
        rw [h2] at h
        dsimp only at h
        cases h3 : locateMatch (termMatch ce) input with
        | none => rw [h3] at h; cases h
        | some endIdx =>
          rw [h3] at h
          dsimp only at h
          injection h with ha hb
          injection hb with hb2
          rw [← hb2] at hl
          dsimp only at hl
          by_cases hrun : r1.takeWhile isAlphaB = []
          · rw [if_pos hrun] at hl; cases hl
          · rw [if_neg hrun] at hl
            injection hl with hl
            rw [← hl]
            exact hrun
  · intro g P l hl
    have hne : ¬(([] : Bytes) = l) := fun he => hl he.symm
    simp [getCodeProps, lookupL, hne]

theorem c10_empty_lang_qualifier_witness :
    (strBytes ("rust") : Bytes) ≠ [] ∧
      getCodeProps ⟨{}, [([], { filename := some (strBytes ("x")) })]⟩
        (some (strBytes ("rust"))) = {} :=
  ⟨c10_empty_lang_qualifier.2.1 (strBytes ("```")) (strBytes ("```"))
      (strBytes ("```rust\nx\n```\n")) (strBytes ("\n"))
      ⟨strBytes ("x\n"), some (strBytes ("rust"))⟩ (strBytes ("rust")) (by decide) rfl,
    c10_empty_lang_qualifier.2.2 {} { filename := some (strBytes ("x")) }
      (strBytes ("rust")) (by decide)⟩

theorem c8_tangle_mode_bijection_witness :
    (validMode (TangleMode.Insert (strBytes ("ab"))) ∧
      strBytes ("insert[ab]") = renderMode (TangleMode.Insert (strBytes ("ab")))) ∧
      tangleModeFromBytes (renderMode (TangleMode.Insert (strBytes ("ab")))) =
        some (TangleMode.Insert (strBytes ("ab"))) :=
  ⟨c8_tangle_mode_bijection.1 (strBytes ("insert[ab]"))
      (TangleMode.Insert (strBytes ("ab"))) (by decide),
    c8_tangle_mode_bijection.2 (TangleMode.Insert (strBytes ("ab"))) (by decide)⟩

/-! ## C7 -/

theorem dropWhile_eq_nil_of_all {p : Nat → Bool} :
    ∀ {t : Bytes}, (∀ c ∈ t, p c = true) → t.dropWhile p = [] := by
  intro t
  induction t with
  | nil => intro _; rfl
  | cons c tl ih =>
    intro h
    rw [List.dropWhile_cons, if_pos (h c (List.mem_cons_self c tl))]
    exact ih (fun d hd => h d (List.mem_cons_of_mem c hd))

theorem dropWhile_append_stop {p : Nat → Bool} :
    ∀ (ws : Bytes) {l : Bytes}, l.dropWhile p = l →
      (ws ++ l).dropWhile p = ws.dropWhile p ++ l := by
  intro ws
  induction ws with
  | nil =>
    intro l hl
    simpa using hl
  | cons c ws2 ih =>
    intro l hl
    rw [List.cons_append, List.dropWhile_cons, List.dropWhile_cons]
    by_cases hc : p c
    · rw [if_pos hc, if_pos hc, ih hl]
    · rw [if_neg hc, if_neg hc, List.cons_append]

theorem key_dropWhile_ws (k : Fin 7) (r : Bytes) :
    (permKey k ++ r).dropWhile isWsB = permKey k ++ r := by
  fin_cases k <;> rfl

theorem key_dropWhile_sp (k : Fin 7) (r : Bytes) :
    (permKey k ++ r).dropWhile isSpaceB = permKey k ++ r := by
  fin_cases k <;> rfl

theorem tagP_key_nil (k : Fin 7) : tagP (permKey k) [] = none := by
  fin_cases k <;> rfl

theorem prefix_shorten {p a b : Bytes} (h : p <+: a ++ b) (hl : p.length ≤ a.length) :
    p <+: a := by
  have hp := List.prefix_iff_eq_take.mp h
  rw [List.take_append_eq_append_take, Nat.sub_eq_zero_of_le hl, List.take_zero,
    List.append_nil] at hp
  rw [hp]
  exact List.take_prefix _ _

theorem takeUntilP_of_noEarly {q : Bytes} (hq : q ≠ []) :
    ∀ {v : Bytes} (tail : Bytes), noEarly q v →
      takeUntilP q (v ++ (q ++ tail)) = some (q ++ tail, v) := by
  intro v
  induction v with
  | nil =>
    intro tail _
    rw [List.nil_append]
    cases q with
    | nil => exact absurd rfl hq
    | cons qh qt =>
      rw [List.cons_append, takeUntilP_cons]
      rw [if_pos (List.isPrefixOf_iff_prefix.mpr ⟨tail, by rw [List.cons_append]⟩)]
  | cons c v2 ih =>
    intro tail h
    rw [List.cons_append, takeUntilP_cons]
    have hpre : ¬ q.isPrefixOf (c :: (v2 ++ (q ++ tail))) = true := by
      intro hb
      have hcon := List.isPrefixOf_iff_prefix.mp hb
      have h0 := h 0 (by simp)
      rw [List.drop_zero] at h0
      refine h0 ?_
      have heq : c :: (v2 ++ (q ++ tail)) = ((c :: v2) ++ q) ++ tail := by simp
      rw [heq] at hcon
      refine prefix_shorten hcon ?_
      rw [List.length_append]
      omega
    rw [if_neg hpre]
    have hshift : noEarly q v2 := by
      intro j hj
      have h2 := h (j + 1) (by simp; omega)
      rw [List.cons_append, List.drop_succ_cons] at h2
      exact h2
    rw [ih tail hshift]

theorem quoteAlt_render {q : Bytes} (hq : isQuote q) (r : Bytes) :
    quoteAlt (q ++ r) = some (q, r) := by
  rcases hq with h | h | h
  · subst h
    unfold quoteAlt
    rw [tagP_append]
  · subst h
    unfold quoteAlt
    rw [show (strBytes ("\"") ++ r : Bytes) = (34 : Nat) :: r from rfl]
    rw [show (sqB : Bytes) = (39 : Nat) :: [] from rfl]
    rw [tagP_cons_ne _ _ (by decide)]
    rw [show ((34 : Nat) :: r : Bytes) = strBytes ("\"") ++ r from rfl]
    rw [tagP_append]
  · subst h
    unfold quoteAlt
    rw [show (strBytes ("|||") ++ r : Bytes) = (124 : Nat) :: (strBytes ("||") ++ r) from rfl]
    rw [show (sqB : Bytes) = (39 : Nat) :: [] from rfl]
    rw [tagP_cons_ne _ _ (by decide)]
    rw [show (strBytes ("\"") : Bytes) = (34 : Nat) :: [] from rfl]
    rw [tagP_cons_ne _ _ (by decide)]
    rw [show ((124 : Nat) :: (strBytes ("||") ++ r) : Bytes) = strBytes ("|||") ++ r from rfl]
    rw [tagP_append]

theorem isQuote_ne_nil {q : Bytes} (hq : isQuote q) : q ≠ [] := by
  rcases hq with h | h | h <;> subst h <;> decide

theorem propertyP_render (k : Fin 6) (ws q v tail : Bytes)
    (hws : ∀ c ∈ ws, isWsB c = true) (hq : isQuote q) (hne : noEarly q v) :
    propertyP (permKey k.castSucc) ((Asg.strA k ws q v).render ++ tail) =
      some (tail.dropWhile isSpaceB, v) := by
  unfold propertyP
  rw [show ((Asg.strA k ws q v).render ++ tail : Bytes) =
      ws ++ (permKey k.castSucc ++ (strBytes ("=") ++ (q ++ (v ++ (q ++ tail)))))
      from by simp [Asg.render, List.append_assoc]]
  rw [dropWhile_append_stop ws (key_dropWhile_ws k.castSucc _),
    dropWhile_eq_nil_of_all hws, List.nil_append]
  rw [tagP_append]
  dsimp only
  rw [tagP_append]
  dsimp only
  rw [quoteAlt_render hq]
  dsimp only
  rw [takeUntilP_of_noEarly (isQuote_ne_nil hq) tail hne]
  dsimp only
  rw [tagP_append]

theorem boolPropertyP_render (ws : Bytes) (b : Bool) (tail : Bytes)
    (hws : ∀ c ∈ ws, isWsB c = true) :
    boolPropertyP (permKey 6) ((Asg.boolA ws b).render ++ tail) =
      some (tail.dropWhile isSpaceB, b) := by
  unfold boolPropertyP
  rw [show ((Asg.boolA ws b).render ++ tail : Bytes) =
      ws ++ (permKey 6 ++ (strBytes ("=") ++
        ((if b then strBytes ("true") else strBytes ("false")) ++ tail)))
      from by simp [Asg.render, List.append_assoc]]
  rw [dropWhile_append_stop ws (key_dropWhile_ws 6 _),
    dropWhile_eq_nil_of_all hws, List.nil_append]
  rw [tagP_append]
  dsimp only
  rw [tagP_append]
  dsimp only
  cases b with
  | true =>
    rw [if_pos rfl]
    rw [tagP_append]
  | false =>
    rw [if_neg (by decide)]
    rw [show (strBytes ("false") ++ tail : Bytes) = (102 : Nat) :: (strBytes ("alse") ++ tail)
        from rfl]
    rw [show (strBytes ("true") : Bytes) = (116 : Nat) :: strBytes ("rue") from rfl]
    rw [tagP_cons_ne _ _ (by decide)]
    rw [show ((102 : Nat) :: (strBytes ("alse") ++ tail) : Bytes) = strBytes ("false") ++ tail
        from rfl]
    rw [tagP_append]

theorem keys_not_prefix : ∀ k k2 : Fin 7, k2 ≠ k → ¬ (permKey k2).isPrefixOf (permKey k) = true := by
  decide

theorem keys_no_eq : ∀ k : Fin 7, (61 : Nat) ∉ permKey k := by
  decide

/-- The key tag of slot `k2` never matches at the start of a different
key's assignment: no key is a prefix of another, and keys contain no `=`
byte. -/
theorem tagP_key_key (k k2 : Fin 7) (hk : k2 ≠ k) (r : Bytes) :
    tagP (permKey k2) (permKey k ++ (strBytes ("=") ++ r)) = none := by
  unfold tagP
  rw [if_neg]
  intro hpre
  rcases le_or_lt (permKey k2).length (permKey k).length with hle | hlt
  · have h2 : permKey k2 <+: permKey k :=
      prefix_shorten (List.isPrefixOf_iff_prefix.mp hpre) hle
    exact keys_not_prefix k k2 hk (List.isPrefixOf_iff_prefix.mpr h2)
  · obtain ⟨t2, ht⟩ := List.isPrefixOf_iff_prefix.mp hpre
    have htake : (permKey k ++ (strBytes ("=") ++ r)).take (permKey k2).length =
        permKey k2 := by
      rw [← ht]
      exact List.take_left _ _
    rw [List.take_append_eq_append_take,
      List.take_of_length_le (Nat.le_of_lt hlt)] at htake
    have hmem : (61 : Nat) ∈ permKey k2 := by
      rw [← htake]
      refine List.mem_append_right _ ?_
      rw [show (strBytes ("=") ++ r : Bytes) = (61 : Nat) :: r from rfl]
      cases hm : (permKey k2).length - (permKey k).length with
      | zero => omega
      | succ m2 =>
        rw [List.take_succ_cons]
        exact List.mem_cons_self _ _
    exact keys_no_eq k2 hmem

theorem propertyP_none_of_tag (key i : Bytes) (h : tagP key (i.dropWhile isWsB) = none) :
    propertyP key i = none := by
  unfold propertyP
  rw [h]

theorem boolPropertyP_none_of_tag (key i : Bytes)
    (h : tagP key (i.dropWhile isWsB) = none) : boolPropertyP key i = none := by
  unfold boolPropertyP
  rw [h]

/-- The leading-whitespace normal form of a rendered assignment plus a
tail: its `dropWhile isWsB` starts at the assignment's key. -/
theorem render_dropWhile_ws (a : Asg) (ha : a.Wf) (tail : Bytes) :
    ∃ r, (a.render ++ tail).dropWhile isWsB = permKey a.key ++ (strBytes ("=") ++ r) := by
  cases a with
  | strA k ws q v =>
    refine ⟨q ++ (v ++ (q ++ tail)), ?_⟩
    rw [show ((Asg.strA k ws q v).render ++ tail : Bytes) =
        ws ++ (permKey k.castSucc ++ (strBytes ("=") ++ (q ++ (v ++ (q ++ tail)))))
        from by simp [Asg.render, List.append_assoc]]
    rw [dropWhile_append_stop ws (key_dropWhile_ws k.castSucc _),
      dropWhile_eq_nil_of_all ha.1, List.nil_append]
    rfl
  | boolA ws b =>
    refine ⟨(if b then strBytes ("true") else strBytes ("false")) ++ tail, ?_⟩
    rw [show ((Asg.boolA ws b).render ++ tail : Bytes) =
        ws ++ (permKey 6 ++ (strBytes ("=") ++
          ((if b then strBytes ("true") else strBytes ("false")) ++ tail)))
        from by simp [Asg.render, List.append_assoc]]
    rw [dropWhile_append_stop ws (key_dropWhile_ws 6 _),
      dropWhile_eq_nil_of_all ha, List.nil_append]
    rfl

theorem fin6_castSucc_ne_six (k : Fin 6) : (k.castSucc : Fin 7) ≠ 6 := by
  intro he
  have hv := congrArg Fin.val he
  simp [Fin.castSucc, Fin.castAdd, Fin.castLE] at hv
  omega

/-- A parser consumes the head assignment exactly when it owns its key. -/
theorem permParse_head (a : Asg) (ha : a.Wf) (tail : Bytes) :
    permParse a.key (a.render ++ tail) = some (tail.dropWhile isSpaceB, a.val) := by
  cases a with
  | strA k ws q v =>
    obtain ⟨hws, hq, hne, _⟩ := ha
    show permParse k.castSucc _ = _
    unfold permParse
    rw [if_neg (fin6_castSucc_ne_six k)]
    rw [propertyP_render k ws q v tail hws hq hne]
    rfl
  | boolA ws b =>
    show permParse 6 _ = _
    unfold permParse
    rw [if_pos rfl]
    rw [boolPropertyP_render ws b tail ha]
    rfl

/-- A parser never consumes an assignment with a different key. -/
theorem permParse_mismatch (a : Asg) (ha : a.Wf) (k2 : Fin 7) (hk : k2 ≠ a.key)
    (tail : Bytes) : permParse k2 (a.render ++ tail) = none := by
  obtain ⟨r, hr⟩ := render_dropWhile_ws a ha tail
  have htag : tagP (permKey k2) ((a.render ++ tail).dropWhile isWsB) = none := by
    rw [hr]
    exact tagP_key_key a.key k2 hk r
  unfold permParse
  by_cases h6 : k2 = 6
  · rw [if_pos h6]
    rw [boolPropertyP_none_of_tag _ _ htag]
  · rw [if_neg h6]
    rw [propertyP_none_of_tag _ _ htag]

/-- No parser matches whitespace-only input. -/
theorem permParse_spaces (k2 : Fin 7) (t : Bytes) (ht : ∀ c ∈ t, isSpaceB c = true) :
    permParse k2 t = none := by
  have hdw : t.dropWhile isWsB = [] :=
    dropWhile_eq_nil_of_all (fun c hc => by simp [isWsB, ht c hc])
  have htag : tagP (permKey k2) (t.dropWhile isWsB) = none := by
    rw [hdw]
    exact tagP_key_nil k2
  unfold permParse
  by_cases h6 : k2 = 6
  · rw [if_pos h6]
    rw [boolPropertyP_none_of_tag _ _ htag]
  · rw [if_neg h6]
    rw [propertyP_none_of_tag _ _ htag]

theorem adjustHead_keys (l : List Asg) : (adjustHead l).map Asg.key = l.map Asg.key := by
  cases l with
  | nil => rfl
  | cons a tl => cases a <;> rfl

theorem adjustHead_length (l : List Asg) : (adjustHead l).length = l.length := by
  cases l with
  | nil => rfl
  | cons a tl => cases a <;> rfl

theorem adjustHead_wf {l : List Asg} (h : ∀ a ∈ l, a.Wf) :
    ∀ a ∈ adjustHead l, a.Wf := by
  cases l with
  | nil => intro a ha; cases ha
  | cons a tl =>
    cases a with
    | strA k ws q v =>
      intro b hb
      rw [show adjustHead (Asg.strA k ws q v :: tl) =
          Asg.strA k (ws.dropWhile isSpaceB) q v :: tl from rfl] at hb
      rcases List.mem_cons.mp hb with hb | hb
      · subst hb
        obtain ⟨hws, h2, h3, h4⟩ := h _ (List.mem_cons_self _ _)
        exact ⟨fun c hc => hws c ((List.dropWhile_sublist _).subset hc), h2, h3, h4⟩
      · exact h b (List.mem_cons_of_mem _ hb)
    | boolA ws b2 =>
      intro b hb
      rw [show adjustHead (Asg.boolA ws b2 :: tl) =
          Asg.boolA (ws.dropWhile isSpaceB) b2 :: tl from rfl] at hb
      rcases List.mem_cons.mp hb with hb | hb
      · subst hb
        have hws := h _ (List.mem_cons_self _ _)
        exact fun c hc => hws c ((List.dropWhile_sublist _).subset hc)
      · exact h b (List.mem_cons_of_mem _ hb)

theorem adjustHead_drop {l : List Asg} {j : Nat} (hj : 1 ≤ j) :
    (adjustHead l).drop j = l.drop j := by
  cases l with
  | nil => rfl
  | cons a tl =>
    obtain ⟨j2, rfl⟩ : ∃ j2, j = j2 + 1 := ⟨j - 1, by omega⟩
    cases a <;> rfl

theorem adjustHead_take {l : List Asg} {j : Nat} (hj : 1 ≤ j) :
    (adjustHead l).take j = adjustHead (l.take j) := by
  cases l with
  | nil => simp [adjustHead]
  | cons a tl =>
    obtain ⟨j2, rfl⟩ : ∃ j2, j = j2 + 1 := ⟨j - 1, by omega⟩
    cases a <;> rfl

theorem fillSlots_cons (r : PermSlots) (a : Asg) (tl : List Asg) :
    fillSlots r (a :: tl) = fillSlots (Function.update r a.key (some a.val)) tl := rfl

theorem fillSlots_adjustHead (r : PermSlots) (l : List Asg) :
    fillSlots r (adjustHead l) = fillSlots r l := by
  cases l with
  | nil => rfl
  | cons a tl => cases a <;> rfl

theorem fillSlots_append (r : PermSlots) (l1 l2 : List Asg) :
    fillSlots r (l1 ++ l2) = fillSlots (fillSlots r l1) l2 :=
  List.foldl_append _ _ _ _

theorem fillSlots_not_mem (r : PermSlots) :
    ∀ (l : List Asg) (k : Fin 7), k ∉ l.map Asg.key → fillSlots r l k = r k := by
  intro l
  induction l generalizing r with
  | nil => intro k _; rfl
  | cons a tl ih =>
    intro k hk
    rw [fillSlots_cons]
    rw [ih _ k (fun hm => hk (by simp [hm]))]
    exact Function.update_noteq (fun he => hk (by simp [he])) _ _

/-- The horizontal-space normal form: after the consumed assignment's
trailing `space0`, the input is the rendering of the head-adjusted
remaining assignments (and of nothing, when none remain). -/
theorem renderBody_dropWhile_sp (l : List Asg) (t : Bytes)
    (ht : ∀ c ∈ t, isSpaceB c = true) :
    (renderBody l ++ t).dropWhile isSpaceB =
      (if l = [] then ([] : Bytes) else renderBody (adjustHead l) ++ t) := by
  cases l with
  | nil =>
    rw [if_pos rfl, show renderBody [] ++ t = t from by simp [renderBody]]
    exact dropWhile_eq_nil_of_all ht
  | cons a tl =>
    rw [if_neg (by simp)]
    cases a with
    | strA k ws q v =>
      rw [show renderBody (Asg.strA k ws q v :: tl) ++ t =
          ws ++ (permKey k.castSucc ++ (strBytes ("=") ++
            (q ++ (v ++ (q ++ (renderBody tl ++ t))))))
          from by simp [renderBody, Asg.render, List.append_assoc]]
      rw [dropWhile_append_stop ws (key_dropWhile_sp k.castSucc _)]
      rw [show renderBody (adjustHead (Asg.strA k ws q v :: tl)) ++ t =
          ws.dropWhile isSpaceB ++ (permKey k.castSucc ++ (strBytes ("=") ++
            (q ++ (v ++ (q ++ (renderBody tl ++ t))))))
          from by simp [adjustHead, renderBody, Asg.render, List.append_assoc]]
    | boolA ws b =>
      rw [show renderBody (Asg.boolA ws b :: tl) ++ t =
          ws ++ (permKey 6 ++ (strBytes ("=") ++
            ((if b then strBytes ("true") else strBytes ("false")) ++ (renderBody tl ++ t))))
          from by simp [renderBody, Asg.render, List.append_assoc]]
      rw [dropWhile_append_stop ws (key_dropWhile_sp 6 _)]
      rw [show renderBody (adjustHead (Asg.boolA ws b :: tl)) ++ t =
          ws.dropWhile isSpaceB ++ (permKey 6 ++ (strBytes ("=") ++
            ((if b then strBytes ("true") else strBytes ("false")) ++ (renderBody tl ++ t))))
          from by simp [adjustHead, renderBody, Asg.render, List.append_assoc]]

theorem passSim_nil (ks : List (Fin 7)) (t : Bytes) (r : PermSlots) (succ : Bool) :
    passSim ks ([], t, r, succ) = ([], t, r, succ) := by
  induction ks with
  | nil => rfl
  | cons k ks2 ih => rw [show passSim (k :: ks2) ([], t, r, succ) =
      passSim ks2 ([], t, r, succ) from rfl, ih]

/-- One `opt_permutation` pass equals its abstract simulation on rendered
well-formed bodies. -/
theorem permStep_foldl :
    ∀ (ks : List (Fin 7)) (l : List Asg) (t : Bytes) (r : PermSlots) (succ : Bool),
      (∀ a ∈ l, a.Wf) → (l.map Asg.key).Nodup → (∀ c ∈ t, isSpaceB c = true) →
      (∀ a ∈ l, r a.key = none) →
      ks.foldl permStep (renderBody l ++ t, r, succ) =
        simRender (passSim ks (l, t, r, succ)) := by
  intro ks
  induction ks with
  | nil => intro l t r succ _ _ _ _; rfl
  | cons k ks2 ih =>
    intro l t r succ hwf hnd ht hslots
    rw [List.foldl_cons]
    cases l with
    | nil =>
      have hstep : permStep (renderBody [] ++ t, r, succ) k = (renderBody [] ++ t, r, succ) := by
        unfold permStep
        dsimp only
        cases hr : r k with
        | some v => rfl
        | none =>
          have hnone : permParse k (renderBody [] ++ t) = none := by
            rw [show renderBody [] ++ t = t from by simp [renderBody]]
            exact permParse_spaces k t ht
          rw [hnone]
      rw [hstep]
      rw [show passSim (k :: ks2) ([], t, r, succ) = passSim ks2 ([], t, r, succ) from rfl]
      exact ih [] t r succ hwf hnd ht hslots
    | cons a tl =>
      have hwfa : a.Wf := hwf a (List.mem_cons_self a tl)
      by_cases hk : a.key = k
      · have hrk : r k = none := hk ▸ hslots a (List.mem_cons_self a tl)
        have hparse : permParse k (renderBody (a :: tl) ++ t) =
            some ((renderBody tl ++ t).dropWhile isSpaceB, a.val) := by
          rw [← hk]
          rw [show renderBody (a :: tl) ++ t = a.render ++ (renderBody tl ++ t) from by
            simp [renderBody, List.append_assoc]]
          exact permParse_head a hwfa _
        have hstep : permStep (renderBody (a :: tl) ++ t, r, succ) k =
            ((renderBody tl ++ t).dropWhile isSpaceB,
              Function.update r k (some a.val), true) := by
          unfold permStep
          dsimp only
          rw [hrk, hparse]
        rw [hstep]
        rw [renderBody_dropWhile_sp tl t ht]
        rw [show passSim (k :: ks2) (a :: tl, t, r, succ) =
            passSim ks2 (adjustHead tl, (if tl = [] then [] else t),
              Function.update r a.key (some a.val), true) from by
          rw [show passSim (k :: ks2) (a :: tl, t, r, succ) =
              (if a.key = k then
                passSim ks2 (adjustHead tl, (if tl = [] then [] else t),
                  Function.update r a.key (some a.val), true)
              else passSim ks2 (a :: tl, t, r, succ)) from rfl]
          rw [if_pos hk]]
        rw [← hk]
        have hslots2 : ∀ b ∈ adjustHead tl,
            Function.update r a.key (some a.val) b.key = none := by
          intro b hb
          have hbkey : b.key ∈ tl.map Asg.key := by
            rw [← adjustHead_keys tl]
            exact List.mem_map_of_mem _ hb
          have hknotin : a.key ∉ tl.map Asg.key := by
            have := hnd
            rw [List.map_cons] at this
            exact (List.nodup_cons.mp this).1
        -- b.key ≠ a.key
          have hne2 : b.key ≠ a.key := fun he => hknotin (he ▸ hbkey)
          rw [Function.update_noteq hne2]
          obtain ⟨b2, hb2, hb2key⟩ := List.mem_map.mp hbkey
          rw [← hb2key]
          exact hslots b2 (List.mem_cons_of_mem _ hb2)
        by_cases htl : tl = []
        · subst htl
          rw [if_pos rfl]
          have hih := ih [] [] (Function.update r a.key (some a.val)) true
            (by intro x hx; cases hx) (by simp) (by intro x hx; cases hx)
            (by intro x hx; cases hx)
          rw [show renderBody ([] : List Asg) ++ ([] : Bytes) = ([] : Bytes) from rfl] at hih
          rw [show adjustHead ([] : List Asg) = ([] : List Asg) from rfl]
          exact hih
        · rw [if_neg htl, if_neg htl]
          have hwf2 : ∀ b ∈ adjustHead tl, b.Wf :=
            adjustHead_wf (fun b hb => hwf b (List.mem_cons_of_mem _ hb))
          have hnd2 : ((adjustHead tl).map Asg.key).Nodup := by
            rw [adjustHead_keys]
            have := hnd
            rw [List.map_cons] at this
            exact (List.nodup_cons.mp this).2
          exact ih (adjustHead tl) t (Function.update r a.key (some a.val)) true
            hwf2 hnd2 ht hslots2
      · have hstep : permStep (renderBody (a :: tl) ++ t, r, succ) k =
            (renderBody (a :: tl) ++ t, r, succ) := by
          unfold permStep
          dsimp only
          cases hr : r k with
          | some v => rfl
          | none =>
            have hnone : permParse k (renderBody (a :: tl) ++ t) = none := by
              rw [show renderBody (a :: tl) ++ t = a.render ++ (renderBody tl ++ t) from by
                simp [renderBody, List.append_assoc]]
              exact permParse_mismatch a hwfa k (fun he => hk he.symm) _
            rw [hnone]
        rw [hstep]
        rw [show passSim (k :: ks2) (a :: tl, t, r, succ) =
            passSim ks2 (a :: tl, t, r, succ) from by
          rw [show passSim (k :: ks2) (a :: tl, t, r, succ) =
              (if a.key = k then
                passSim ks2 (adjustHead tl, (if tl = [] then [] else t),
                  Function.update r a.key (some a.val), true)
              else passSim ks2 (a :: tl, t, r, succ)) from rfl]
          rw [if_neg hk]]
        exact ih (a :: tl) t r succ hwf hnd ht hslots

theorem passSim_cons_consume {k : Fin 7} (ks2 : List (Fin 7)) {a : Asg}
    (tl : List Asg) (t : Bytes) (r : PermSlots) (succ : Bool) (hk : a.key = k) :
    passSim (k :: ks2) (a :: tl, t, r, succ) =
      passSim ks2 (adjustHead tl, (if tl = [] then [] else t),
        Function.update r a.key (some a.val), true) := by
  rw [show passSim (k :: ks2) (a :: tl, t, r, succ) =
      (if a.key = k then
        passSim ks2 (adjustHead tl, (if tl = [] then [] else t),
          Function.update r a.key (some a.val), true)
      else passSim ks2 (a :: tl, t, r, succ)) from rfl]
  rw [if_pos hk]

theorem passSim_cons_skip {k : Fin 7} (ks2 : List (Fin 7)) {a : Asg}
    (tl : List Asg) (t : Bytes) (r : PermSlots) (succ : Bool) (hk : ¬ a.key = k) :
    passSim (k :: ks2) (a :: tl, t, r, succ) = passSim ks2 (a :: tl, t, r, succ) := by
  rw [show passSim (k :: ks2) (a :: tl, t, r, succ) =
      (if a.key = k then
        passSim ks2 (adjustHead tl, (if tl = [] then [] else t),
          Function.update r a.key (some a.val), true)
      else passSim ks2 (a :: tl, t, r, succ)) from rfl]
  rw [if_neg hk]

theorem passSim_length (ks : List (Fin 7)) :
    ∀ st, ((passSim ks st).1).length ≤ st.1.length := by
  induction ks with
  | nil => intro st; exact Nat.le_refl _
  | cons k ks2 ih =>
    intro st
    obtain ⟨l, t, r, succ⟩ := st
    cases l with
    | nil =>
      rw [show passSim (k :: ks2) ([], t, r, succ) = passSim ks2 ([], t, r, succ) from rfl]
      exact ih _
    | cons a tl =>
      by_cases hk : a.key = k
      · rw [passSim_cons_consume ks2 tl t r succ hk]
        calc ((passSim ks2 (adjustHead tl, (if tl = [] then [] else t),
                Function.update r a.key (some a.val), true)).1).length
            ≤ (adjustHead tl).length := ih _
          _ = tl.length := adjustHead_length tl
          _ ≤ (a :: tl).length := by simp
      · rw [passSim_cons_skip ks2 tl t r succ hk]
        exact ih _

theorem passSim_consumes (ks : List (Fin 7)) :
    ∀ (a : Asg) (tl : List Asg) (t : Bytes) (r : PermSlots) (succ : Bool),
      a.key ∈ ks →
      ((passSim ks (a :: tl, t, r, succ)).1).length ≤ tl.length := by
  induction ks with
  | nil => intro a tl t r succ hm; cases hm
  | cons k ks2 ih =>
    intro a tl t r succ hm
    by_cases hk : a.key = k
    · rw [passSim_cons_consume ks2 tl t r succ hk]
      calc ((passSim ks2 (adjustHead tl, (if tl = [] then [] else t),
              Function.update r a.key (some a.val), true)).1).length
          ≤ (adjustHead tl).length := passSim_length ks2 _
        _ = tl.length := adjustHead_length tl
    · rw [passSim_cons_skip ks2 tl t r succ hk]
      rcases List.mem_cons.mp hm with hm | hm
      · exact absurd hm hk
      · exact ih a tl t r succ hm

/-- The abstract effect of one pass: a prefix of `j` assignments is
consumed in order, the next head's whitespace is space-trimmed, the
trailing spaces vanish when everything was consumed, the slots record the
consumed prefix, and the success flag is raised iff anything was
consumed. -/
theorem passSim_spec (ks : List (Fin 7)) :
    ∀ (l : List Asg) (t : Bytes) (r : PermSlots) (succ : Bool),
      ∃ j, j ≤ l.length ∧
        passSim ks (l, t, r, succ) =
          ((if j = 0 then l else adjustHead (l.drop j)),
            (if 1 ≤ j ∧ l.drop j = [] then ([] : Bytes) else t),
            fillSlots r (l.take j),
            (succ || decide (1 ≤ j))) := by
  induction ks with
  | nil =>
    intro l t r succ
    refine ⟨0, Nat.zero_le _, ?_⟩
    rw [show passSim [] (l, t, r, succ) = (l, t, r, succ) from rfl]
    simp [fillSlots]
  | cons k ks2 ih =>
    intro l t r succ
    cases l with
    | nil =>
      obtain ⟨j, hj, hps⟩ := ih [] t r succ
      have hj0 : j = 0 := Nat.le_zero.mp hj
      subst hj0
      exact ⟨0, Nat.le_refl 0,
        by rw [show passSim (k :: ks2) ([], t, r, succ) =
            passSim ks2 ([], t, r, succ) from rfl]; exact hps⟩
    | cons a tl =>
      by_cases hk : a.key = k
      · rw [passSim_cons_consume ks2 tl t r succ hk]
        obtain ⟨j2, hj2, hps⟩ := ih (adjustHead tl) (if tl = [] then [] else t)
          (Function.update r a.key (some a.val)) true
        refine ⟨j2 + 1, ?_, ?_⟩
        · have hal := adjustHead_length tl
          simp only [List.length_cons]
          omega
        · rw [hps]
          have hc1 : (if j2 = 0 then adjustHead tl
              else adjustHead ((adjustHead tl).drop j2)) =
              (if j2 + 1 = 0 then a :: tl else adjustHead ((a :: tl).drop (j2 + 1))) := by
            rw [if_neg (show ¬(j2 + 1 = 0) from by omega), List.drop_succ_cons]
            by_cases hj0 : j2 = 0
            · subst hj0
              rw [if_pos rfl, List.drop_zero]
            · rw [if_neg hj0, adjustHead_drop (show 1 ≤ j2 from by omega)]
          have hc2 : (if 1 ≤ j2 ∧ (adjustHead tl).drop j2 = [] then ([] : Bytes)
              else (if tl = [] then [] else t)) =
              (if 1 ≤ j2 + 1 ∧ (a :: tl).drop (j2 + 1) = [] then ([] : Bytes) else t) := by
            rw [List.drop_succ_cons]
            by_cases htl : tl = []
            · subst htl
              have hd : (adjustHead ([] : List Asg)).drop j2 = [] := by
                simp [adjustHead]
              have hd2 : (([] : List Asg) : List Asg).drop j2 = [] := by simp
              rw [if_pos (show 1 ≤ j2 + 1 ∧ (([] : List Asg)).drop j2 = []
                from ⟨by omega, hd2⟩)]
              by_cases hj0 : 1 ≤ j2
              · rw [if_pos (show 1 ≤ j2 ∧ (adjustHead ([] : List Asg)).drop j2 = []
                  from ⟨hj0, hd⟩)]
              · rw [if_neg (show ¬(1 ≤ j2 ∧ (adjustHead ([] : List Asg)).drop j2 = [])
                  from fun hcon => hj0 hcon.1)]
                rw [if_pos rfl]
            · by_cases hj0 : 1 ≤ j2
              · by_cases hd : tl.drop j2 = []
                · rw [if_pos (show 1 ≤ j2 ∧ (adjustHead tl).drop j2 = []
                    from ⟨hj0, by rw [adjustHead_drop hj0]; exact hd⟩)]
                  rw [if_pos (show 1 ≤ j2 + 1 ∧ tl.drop j2 = [] from ⟨by omega, hd⟩)]
                · rw [if_neg (show ¬(1 ≤ j2 ∧ (adjustHead tl).drop j2 = [])
                    from fun hcon => hd (by rw [← adjustHead_drop hj0]; exact hcon.2))]
                  rw [if_neg (show ¬(1 ≤ j2 + 1 ∧ tl.drop j2 = [])
                    from fun hcon => hd hcon.2)]
                  rw [if_neg htl]
              · have hj00 : j2 = 0 := by omega
                subst hj00
                rw [if_neg (show ¬((1 : Nat) ≤ 0 ∧ (adjustHead tl).drop 0 = [])
                  from fun hcon => by omega)]
                rw [if_neg (show ¬((1 : Nat) ≤ 0 + 1 ∧ tl.drop 0 = [])
                  from fun hcon => htl (by simpa using hcon.2))]
                rw [if_neg htl]
          have hc3 : fillSlots (Function.update r a.key (some a.val))
              ((adjustHead tl).take j2) = fillSlots r ((a :: tl).take (j2 + 1)) := by
            rw [List.take_succ_cons, fillSlots_cons]
            by_cases hj0 : 1 ≤ j2
            · rw [adjustHead_take hj0, fillSlots_adjustHead]
            · have hj00 : j2 = 0 := by omega
              subst hj00
              rw [List.take_zero, List.take_zero]
          have hc4 : (true || decide (1 ≤ j2)) = (succ || decide (1 ≤ j2 + 1)) := by
            have h1j : (1 : Nat) ≤ j2 + 1 := by omega
            simp [h1j]
          rw [hc1, hc2, hc3, hc4]
      · rw [passSim_cons_skip ks2 tl t r succ hk]
        exact ih (a :: tl) t r succ

/-- The `while success` loop consumes a whole well-formed body and records
every assignment. -/
theorem permLoop_spec :
    ∀ (n : Nat) (l : List Asg) (t : Bytes) (r : PermSlots),
      (∀ a ∈ l, a.Wf) → (l.map Asg.key).Nodup → (∀ c ∈ t, isSpaceB c = true) →
      (∀ a ∈ l, r a.key = none) → l.length < n →
      permLoop n (renderBody l ++ t) r =
        ((if l = [] then t else ([] : Bytes)), fillSlots r l) := by
  intro n
  induction n with
  | zero => intro l t r _ _ _ _ h; omega
  | succ n2 ih =>
    intro l t r hwf hnd ht hslots hlen
    rw [show permLoop (n2 + 1) (renderBody l ++ t) r =
        (match permPass (renderBody l ++ t) r with
         | (i2, r2, true) => permLoop n2 i2 r2
         | (i2, r2, false) => (i2, r2)) from rfl]
    rw [show permPass (renderBody l ++ t) r =
        (List.finRange 7).foldl permStep (renderBody l ++ t, r, false) from rfl]
    rw [permStep_foldl (List.finRange 7) l t r false hwf hnd ht hslots]
    cases l with
    | nil =>
      rw [passSim_nil]
      rw [show simRender ([], t, r, false) = (renderBody [] ++ t, r, false) from rfl]
      dsimp only
      rw [if_pos rfl]
      rw [show renderBody [] ++ t = t from by simp [renderBody]]
      rfl
    | cons a tl =>
      obtain ⟨j, hj, hps⟩ := passSim_spec (List.finRange 7) (a :: tl) t r false
      have hcons := passSim_consumes (List.finRange 7) a tl t r false
        (List.mem_finRange a.key)
      have hj1 : 1 ≤ j := by
        by_contra hj0
        have hj00 : j = 0 := by omega
        subst hj00
        rw [hps] at hcons
        simp at hcons
      rw [hps]
      rw [if_neg (by omega)]
      rw [show simRender (adjustHead ((a :: tl).drop j),
          (if 1 ≤ j ∧ (a :: tl).drop j = [] then ([] : Bytes) else t),
          fillSlots r ((a :: tl).take j), (false || decide (1 ≤ j))) =
        (renderBody (adjustHead ((a :: tl).drop j)) ++
            (if 1 ≤ j ∧ (a :: tl).drop j = [] then ([] : Bytes) else t),
          fillSlots r ((a :: tl).take j), (false || decide (1 ≤ j))) from rfl]
      rw [show (false || decide (1 ≤ j)) = true from by simp [hj1]]
      dsimp only
      have hwf2 : ∀ b ∈ adjustHead ((a :: tl).drop j), b.Wf :=
        adjustHead_wf (fun b hb => hwf b (List.drop_subset _ _ hb))
      have hnd2 : ((adjustHead ((a :: tl).drop j)).map Asg.key).Nodup := by
        rw [adjustHead_keys, List.map_drop]
        exact (List.drop_sublist _ _).nodup hnd
      have hslots2 : ∀ b ∈ adjustHead ((a :: tl).drop j),
          fillSlots r ((a :: tl).take j) b.key = none := by
        intro b hb
        have hbkey : b.key ∈ ((a :: tl).drop j).map Asg.key := by
          rw [← adjustHead_keys]
          exact List.mem_map_of_mem _ hb
        have hknotin : b.key ∉ ((a :: tl).take j).map Asg.key := by
          intro hmem
          have hnd3 : (((a :: tl).take j).map Asg.key ++
              ((a :: tl).drop j).map Asg.key).Nodup := by
            rw [← List.map_append, List.take_append_drop]
            exact hnd
          exact (List.disjoint_of_nodup_append hnd3) hmem hbkey
        rw [fillSlots_not_mem r _ _ hknotin]
        rw [List.map_drop] at hbkey
        have hbkey2 : b.key ∈ (a :: tl).map Asg.key :=
          (List.drop_subset _ _) hbkey
        obtain ⟨b2, hb2, hb2key⟩ := List.mem_map.mp hbkey2
        rw [← hb2key]
        exact hslots b2 hb2
      by_cases hdrop : (a :: tl).drop j = []
      · rw [if_pos ⟨hj1, hdrop⟩]
        have hlen2 : (adjustHead ((a :: tl).drop j)).length < n2 := by
          rw [adjustHead_length, List.length_drop]
          simp only [List.length_cons] at hlen hj ⊢
          omega
        have hih := ih (adjustHead ((a :: tl).drop j)) [] (fillSlots r ((a :: tl).take j))
          hwf2 hnd2 (by intro c hc; cases hc) hslots2 hlen2
        rw [hih]
        rw [hdrop]
        rw [show adjustHead ([] : List Asg) = ([] : List Asg) from rfl]
        rw [if_pos rfl, if_neg (by simp)]
        rw [show fillSlots (fillSlots r ((a :: tl).take j)) ([] : List Asg) =
            fillSlots r ((a :: tl).take j) from rfl]
        have htake : (a :: tl).take j = a :: tl := by
          have := List.take_append_drop j (a :: tl)
          rw [hdrop, List.append_nil] at this
          exact this
        rw [htake]
      · rw [if_neg (by simp [hdrop])]
        have hlen2 : (adjustHead ((a :: tl).drop j)).length < n2 := by
          rw [adjustHead_length, List.length_drop]
          simp only [List.length_cons] at hlen hj ⊢
          omega
        have hih := ih (adjustHead ((a :: tl).drop j)) t (fillSlots r ((a :: tl).take j))
          hwf2 hnd2 ht hslots2 hlen2
        rw [hih]
        have hadne : adjustHead ((a :: tl).drop j) ≠ [] := by
          intro he
          have := congrArg List.length he
          rw [adjustHead_length] at this
          exact hdrop (List.length_eq_zero.mp (by simpa using this))
        rw [if_neg hadne, if_neg (by simp)]
        rw [fillSlots_adjustHead, ← fillSlots_append, List.take_append_drop]

theorem fillSlots_lookup :
    ∀ (l : List Asg) (r : PermSlots) (k : Fin 7), (l.map Asg.key).Nodup →
      fillSlots r l k =
        (match lookupAsg l k with
         | some v => some v
         | none => r k) := by
  intro l
  induction l with
  | nil => intro r k _; rfl
  | cons a tl ih =>
    intro r k hnd
    rw [List.map_cons] at hnd
    obtain ⟨hnotin, hnd2⟩ := List.nodup_cons.mp hnd
    rw [fillSlots_cons, ih _ k hnd2]
    by_cases hke : a.key = k
    · have hlt : lookupAsg tl k = none := by
        unfold lookupAsg
        rw [List.find?_eq_none.mpr ?_]
        · rfl
        · intro x hx
          simp only [decide_eq_true_eq]
          intro he
          refine hnotin ?_
          rw [hke, ← he]
          exact List.mem_map_of_mem Asg.key hx
      have hla : lookupAsg (a :: tl) k = some a.val := by
        unfold lookupAsg
        rw [List.find?_cons_of_pos _ (by simp [hke])]
        rfl
      rw [hlt, hla]
      dsimp only
      rw [← hke]
      exact Function.update_same _ _ _
    · have hla : lookupAsg (a :: tl) k = lookupAsg tl k := by
        unfold lookupAsg
        rw [List.find?_cons_of_neg _ (by simp [hke])]
      rw [hla]
      cases hlt : lookupAsg tl k with
      | some v => rfl
      | none =>
        dsimp only
        exact Function.update_noteq (fun he => hke he.symm) _ _

theorem lookupAsg_val_shape {l : List Asg} {k : Fin 7} {pv : PVal}
    (h : lookupAsg l k = some pv) :
    ∃ a, a ∈ l ∧ a.key = k ∧ a.val = pv := by
  unfold lookupAsg at h
  cases hf : l.find? (fun a => a.key = k) with
  | none => rw [hf] at h; cases h
  | some a =>
    rw [hf] at h
    injection h with h
    have hm := List.mem_of_find?_eq_some hf
    have hp := List.find?_some hf
    simp only [decide_eq_true_eq] at hp
    exact ⟨a, hm, hp, h⟩

theorem slotBytes_fill (l : List Asg) (k : Fin 7) (hnd : (l.map Asg.key).Nodup) :
    slotBytes (fillSlots permInit l) k = pvalBytes (lookupAsg l k) := by
  unfold slotBytes
  rw [fillSlots_lookup l permInit k hnd]
  cases hl : lookupAsg l k with
  | none => rfl
  | some pv => cases pv with
    | inl v => rfl
    | inr b => rfl

theorem slotBool_fill (l : List Asg) (hnd : (l.map Asg.key).Nodup) :
    slotBool (fillSlots permInit l) = pvalBool (lookupAsg l 6) := by
  unfold slotBool
  rw [fillSlots_lookup l permInit 6 hnd]
  cases hl : lookupAsg l 6 with
  | none => rfl
  | some pv => cases pv with
    | inl v => rfl
    | inr b => rfl

theorem slotsProps_fill (l : List Asg) (hwf : ∀ a ∈ l, a.Wf)
    (hnd : (l.map Asg.key).Nodup) :
    slotsProps (fillSlots permInit l) = some (propsOfAsgs l) := by
  unfold slotsProps propsOfAsgs
  rw [slotBytes_fill l 4 hnd, slotBytes_fill l 0 hnd, slotBytes_fill l 3 hnd,
    slotBytes_fill l 1 hnd, slotBytes_fill l 2 hnd, slotBytes_fill l 5 hnd,
    slotBool_fill l hnd]
  cases hl4 : lookupAsg l 4 with
  | none => rfl
  | some pv =>
    cases pv with
    | inr b => rfl
    | inl mb =>
      obtain ⟨a, hal, hak, hav⟩ := lookupAsg_val_shape hl4
      cases a with
      | boolA ws b => cases hak
      | strA k2 ws q v =>
        have hk2 : k2 = (4 : Fin 6) := by
          apply Fin.ext
          have := congrArg Fin.val hak
          simpa [Asg.key] using this
        have hv : v = mb := by
          have := hav
          simp only [Asg.val] at this
          injection this
        have hsome := (hwf _ hal).2.2.2 hk2
        rw [hv] at hsome
        obtain ⟨m, hm⟩ := Option.isSome_iff_exists.mp hsome
        simp only [pvalBytes]
        rw [hm]

/-- C7 counterexample: the claim states that well-formed assignment bodies
with arbitrary surrounding whitespace — explicitly including whitespace
after the last assignment — are `Matched`, and that `Invalid` occurs
exactly for unknown keys, duplicate keys or leftover non-whitespace.  All
three conjuncts refute it: a well-formed `filename` assignment followed by
a newline is rejected (trailing newlines are leftover bytes), a
well-formed assignment with the recognised key `mode` but an unparsable
mode value is rejected, and a whitespace-only body is rejected, though
none of them has an unknown key, a duplicate key, or leftover
non-whitespace bytes. -/
theorem c7_counterexample :
    propertiesP (strBytes (" filename=\"x\"\n")) = none ∧
      propertiesP (strBytes (" mode=\"zzz\" ")) = none ∧
      propertiesP (strBytes (" ")) = none :=
  ⟨rfl, rfl, rfl⟩

/-- C7 amended: the recogniser returns `Matched` for every body consisting
of well-formed assignments with recognised keys, each key at most once,
separated by arbitrary whitespace, provided any whitespace after the last
assignment is horizontal (spaces/tabs) and every `mode` value parses; the
recorded properties are exactly the assignments' values.  It returns
`Invalid` whenever the assignment-consuming loop leaves unconsumed bytes —
which covers unknown keys, duplicate keys, trailing garbage and also
trailing newlines — or a `mode` value fails to parse. -/
theorem c7_amended_body_grammar :
    (∀ (l : List Asg) (t : Bytes),
      (∀ a ∈ l, a.Wf) → (l.map Asg.key).Nodup → (∀ c ∈ t, isSpaceB c = true) →
      l ≠ [] →
      propertiesP (renderBody l ++ t) = some (propsOfAsgs l)) ∧
    (∀ i : Bytes, (permLoop 8 i permInit).1 ≠ [] → propertiesP i = none) := by
  constructor
  · intro l t hwf hnd ht hl
    have hlen : l.length < 8 := by
      have hcard := List.Nodup.length_le_card hnd
      rw [List.length_map] at hcard
      simp only [Fintype.card_fin] at hcard
      omega
    have hloop := permLoop_spec 8 l t permInit hwf hnd ht (fun a _ => rfl) hlen
    rw [if_neg hl] at hloop
    unfold propertiesP
    rw [hloop]
    rw [if_pos rfl]
    exact slotsProps_fill l hwf hnd
  · intro i hne
    unfold propertiesP
    rw [if_neg hne]

theorem c7_amended_body_grammar_witness :
    propertiesP (renderBody [Asg.boolA [] true,
        Asg.strA 0 [32] (strBytes ("\"")) (strBytes ("a.rs"))] ++ [32]) =
      some (propsOfAsgs [Asg.boolA [] true,
        Asg.strA 0 [32] (strBytes ("\"")) (strBytes ("a.rs"))]) ∧
      propertiesP (strBytes (" tog=\"bad\" ")) = none :=
  ⟨c7_amended_body_grammar.1
      [Asg.boolA [] true, Asg.strA 0 [32] (strBytes ("\"")) (strBytes ("a.rs"))]
      [32] (by decide) (by decide) (by decide) (by decide),
    c7_amended_body_grammar.2 (strBytes (" tog=\"bad\" ")) (by decide)⟩

end Betwixt
